import Mathlib

/-!
BLS12-381 base field engine and GLV scalar decomposition

A shallow embedding of `fp.go` (the field element engine) and `glv.go` (the
GLV decomposition) together with the properties of the specification that
are settled on it.

Conventions of the embedding.

* A field element `fe` (six 64-bit limbs, little-limb order) is the natural
  number it denotes, a value below `2^384`; the limb kernels that `fp.go`
  calls are given at that level, with the reduction modulo `2^384` written
  out wherever a kernel can drop a carry.
* A scalar `Fr` (four 64-bit limbs) is the natural number it denotes.
* The prime modulus is declared outside the two files; the field engine is
  embedded with the modulus as the parameter `q`, and the BLS12-381 value is
  given as `modulus` (and proved prime) for the concrete evaluations.
* A Go function that writes its result through a pointer returns that result.
-/

set_option exponentiation.threshold 1024
set_option maxRecDepth 100000

namespace Bls

/-! ## Constants and kernels that `fp.go` uses but does not declare -/

/-- Modelled from the spec: the Montgomery radix `R = 2^384` of the 6-limb
representation. -/
def montR : Nat := 2 ^ 384

/-- Modelled from the spec: the fixed 381-bit prime modulus `q` (the Go
variable `modulus`, declared outside `fp.go`). The value is the BLS12-381
base field prime `(x - 1)^2 (x^4 - x^2 + 1) / 3 + x` for the curve parameter
`x = -0xd201000000010000`, whose square is `glvB2` of `glv.go`. -/
def modulus : Nat :=
  0x1a0111ea397fe69a4b1ba7b6434bacd764774b84f38512bf6730d2a0f6b0f6241eabfffeb153ffffb9feffffffffaaab

/-- Halving modulo an odd `q`: the value `h` with `2 * h ≡ x (mod q)`. -/
def halfMod (q x : Nat) : Nat :=
  if x % 2 = 0 then x / 2 else (x + q) / 2

/-- Modelled from the spec: `R⁻¹ mod q`, the inverse of the Montgomery radix,
obtained by halving `1` modulo `q` once for each of the 384 bits of `R`. -/
def rInv (q : Nat) : Nat :=
  (halfMod q)^[384] 1 % q

/-- Modelled from the spec: the Montgomery product `mul(c, a, b)`, which
computes `c = a·b·R⁻¹ mod q` (the kernels `montmul_bmi2` and `montmul_nobmi2`
are declared outside `fp.go` and are interchangeable). -/
def mul (q a b : Nat) : Nat :=
  a * b * rInv q % q

/-- Modelled from the spec: `r1 = R mod q`, the Montgomery form of 1. -/
def r1 (q : Nat) : Nat := montR % q

/-- Modelled from the spec: `r2 = R² mod q`, the constant that lifts a
standard-form value into Montgomery form by one multiplication. -/
def r2 (q : Nat) : Nat := montR * montR % q

/-- Modelled from the spec: the exponent `(q+1)/4` of the square root. -/
def pPlus1Over4 (q : Nat) : Nat := (q + 1) / 4

/-- A byte of a Go `[]byte`. -/
abbrev Byte := Fin 256

/-- Modelled from the spec: `fe.FromBytes`, the value of a big-endian byte
string, most-significant byte first. -/
def feFromBytes (bs : List Byte) : Nat :=
  bs.foldl (fun acc b => acc * 256 + b.val) 0

/-- The `n` low-order base-256 digits of `v`, most-significant first. -/
def beBytes : Nat → Nat → List Byte
  | 0, _ => []
  | n + 1, v => beBytes n (v / 256) ++ [⟨v % 256, Nat.mod_lt _ (by decide)⟩]

/-- Modelled from the spec: `fe.Bytes`, the 48-byte big-endian encoding of
the value of a field element. -/
def feBytes (a : Nat) : List Byte := beBytes 48 a

/-- Modelled from the spec: `fe.Cmp`, the three-way comparison of two values
(`-1`, `0` or `1`). -/
def feCmp (a b : Nat) : Int :=
  if a < b then -1 else if a = b then 0 else 1

/-- Modelled from the spec: the limb kernel `neg` (declared outside `fp.go`),
the modular negation of a nonzero element, computed as the 6-limb
subtraction `q - a`; on `a = 0` it leaves `q` itself. -/
def neg (q a : Nat) : Nat := (q + (2 ^ 384 - a % 2 ^ 384)) % 2 ^ 384

/-! ## `fp.go` -/

/-- The two errors of `fromBytes`, named after the specification's taxonomy:
`invalidLength` is the Go error "input string should be equal 48 bytes" and
`invalidValue` is "invalid input string". -/
inductive FpError where
  | invalidLength
  | invalidValue
  deriving DecidableEq, Repr

/-- The Go method `fp.valid`: `fe.Cmp(&modulus) == -1`. -/
def valid (q a : Nat) : Bool :=
  feCmp a q == -1

/-- The Go method `fp.zero`. -/
def zero : Nat := 0

/-- The Go method `fp.one`: a copy of `r1`. -/
def one (q : Nat) : Nat := r1 q

/-- The Go method `fp.equal`. -/
def equal (a b : Nat) : Bool := a == b

/-- The Go method `fp.toMont`: `mul(c, a, r2)`. -/
def toMont (q a : Nat) : Nat := mul q a (r2 q)

/-- The Go method `fp.fromMont`: `mul(c, a, &fe{1})`. -/
def fromMont (q a : Nat) : Nat := mul q a 1

/-- The Go method `fp.square`: `mul(c, a, a)`. -/
def square (q a : Nat) : Nat := mul q a a

/-- The Go method `fp.fromBytes`. -/
def fromBytes (q : Nat) (input : List Byte) : Except FpError Nat :=
  if input.length ≠ 48 then
    Except.error FpError.invalidLength
  else
    let fe := feFromBytes input
    if !valid q fe then
      Except.error FpError.invalidValue
    else
      Except.ok (mul q fe (r2 q))

/-- The Go method `fp.toBytes`: leave Montgomery form, then serialise. -/
def toBytes (q e : Nat) : List Byte :=
  feBytes (fromMont q e)

/-- The Go method `fp.fromUInt64`; the argument `inp` is the `uint64` input
and `&fe{in}` is the element whose lowest limb is `in`. -/
def fromUInt64 (q inp : Nat) : Except FpError Nat :=
  let fe := inp
  if inp = 0 then
    Except.ok fe
  else if !valid q fe then
    Except.error FpError.invalidValue
  else
    Except.ok (mul q fe (r2 q))

/-- The Go method `fp.toBig`: leave Montgomery form, then read the limbs as a
non-negative integer. -/
def toBig (q e : Nat) : Nat :=
  fromMont q e

/-- The number of binary digits of `e`, counted by halving (at most `fuel`
halvings). -/
def bitLenAux : Nat → Nat → Nat
  | 0, _ => 0
  | fuel + 1, e => if e = 0 then 0 else bitLenAux fuel (e / 2) + 1

/-- The Go method `big.Int.BitLen` on a non-negative integer: the number of
binary digits, `0` for `0`. -/
def bitLen (e : Nat) : Nat :=
  bitLenAux e e

/-- The Go method `big.Int.Bit` on a non-negative integer. -/
def bit (e i : Nat) : Nat :=
  e / 2 ^ i % 2

/-- The loop of `fp.exp` with `n` iterations left: the iteration with
`n = i + 1` is the one the Go loop runs at index `i`. -/
def expLoop (q a e : Nat) : Nat → Nat → Nat
  | 0, z => z
  | i + 1, z =>
    let z1 := mul q z z
    let z2 := if bit e i = 1 then mul q z1 a else z1
    expLoop q a e i z2

/-- The Go method `fp.exp`: the loop runs for `i = e.BitLen()` down to `0`. -/
def exp (q a e : Nat) : Nat :=
  expLoop q a e (bitLen e + 1) (r1 q)

/-- The Go method `fp.sqrt`: the flag `hasRoot` and the value left in `c`. -/
def sqrt (q a : Nat) : Bool × Nat :=
  let u := a
  let c := exp q a (pPlus1Over4 q)
  let v := square q c
  (equal u v, c)

/-! ## The Montgomery inverse of `fp.go` -/

/-- Modelled from the spec: `fe.IsZero`. -/
def feIsZero (a : Nat) : Bool := a == 0

/-- The Go method `fp.neg` (the method of the field engine, which calls the
limb kernel `neg` on a nonzero argument). -/
def fp.neg (q a : Nat) : Nat :=
  if feIsZero a then a else Bls.neg q a

/-- Modelled from the spec: `fe.IsEven`. -/
def feIsEven (a : Nat) : Bool := a % 2 == 0

/-- Modelled from the spec: `fe.div2(e)`, the halving of Phase 1: a right
shift of the six limbs by one bit, with the bit `e` entering at the top. -/
def feDiv2 (a e : Nat) : Nat := a / 2 + e % 2 * 2 ^ 383

/-- Modelled from the spec: `fe.mul2()`, the doubling of a Phase 1
coefficient: a left shift of the six limbs by one bit; the second component
is the bit shifted out, which the caller accumulates into `z`. -/
def feMul2 (a : Nat) : Nat × Nat := (2 * a % 2 ^ 384, a / 2 ^ 383 % 2)

/-- Modelled from the spec: `lsub_assign_nc_6(a, b)`, the subtraction of the
six limbs with no reduction (the borrow out of the top limb is dropped). -/
def lsubAssignNc6 (a b : Nat) : Nat := (a + (2 ^ 384 - b % 2 ^ 384)) % 2 ^ 384

/-- Modelled from the spec: `ladd_assign_6(a, b)`, the lazy addition of the
six limbs that skips the final reduction. -/
def laddAssign6 (a b : Nat) : Nat := (a + b) % 2 ^ 384

/-- Modelled from the spec: `double6(c, a)`, the modular doubling. -/
def double6 (q a : Nat) : Nat := 2 * a % q

/-- The local variables of `fp.inverse` that Phase 1 updates. -/
structure InvState where
  u : Nat
  v : Nat
  s : Nat
  r : Nat
  k : Nat
  z : Nat
  found : Bool
  deriving DecidableEq, Repr

/-- One iteration of the Phase 1 loop of `fp.inverse` in which `v` is not
zero: the four-way branch, then `k += 1`. The counter `z` is a `uint64`. -/
def phase1Step (st : InvState) : InvState :=
  if feIsEven st.u then
    { st with u := feDiv2 st.u 0, s := (feMul2 st.s).1, k := st.k + 1 }
  else if feIsEven st.v then
    { st with v := feDiv2 st.v 0, r := (feMul2 st.r).1,
              z := (st.z + (feMul2 st.r).2) % 2 ^ 64, k := st.k + 1 }
  else if feCmp st.u st.v = 1 then
    let uSub := lsubAssignNc6 st.u st.v
    let rSum := laddAssign6 st.r st.s
    { st with u := feDiv2 uSub 0, r := rSum, s := (feMul2 st.s).1, k := st.k + 1 }
  else
    let vSub := lsubAssignNc6 st.v st.u
    let sSum := laddAssign6 st.s st.r
    { st with v := feDiv2 vSub 0, s := sSum, r := (feMul2 st.r).1,
              z := (st.z + (feMul2 st.r).2) % 2 ^ 64, k := st.k + 1 }

/-- The Phase 1 loop of `fp.inverse` with `n` iterations left: it stops with
`found = true` as soon as `v` is zero. -/
def phase1 : Nat → InvState → InvState
  | 0, st => st
  | n + 1, st =>
    if feIsZero st.v then { st with found := true }
    else phase1 n (phase1Step st)

/-- The state in which `fp.inverse` enters Phase 1. -/
def phase1Init (q e : Nat) : InvState :=
  { u := q, v := e, s := 1, r := 0, k := 0, z := 0, found := false }

/-- The Go method `fp.inverse`: the value written to `inv`. -/
def inverse (q e : Nat) : Nat :=
  let st := phase1 (384 * 2) (phase1Init q e)
  if st.found && decide (st.k > 384) then
    let r := if feCmp st.r q != -1 || decide (st.z > 0) then lsubAssignNc6 st.r q else st.r
    let u := lsubAssignNc6 q r
    (double6 q)^[384 * 2 - st.k] u
  else
    0

/-! ## Constants and types that `glv.go` uses but does not declare -/

/-- The value of a little-limb-order array of 64-bit limbs (the Go array
literals of `Fr` and `wideFr`). -/
def ofLimbs : List Nat → Nat
  | [] => 0
  | x :: xs => x + 2 ^ 64 * ofLimbs xs

/-- Modelled from the spec: the group order `r` (the Go variable `qBig`,
declared outside `glv.go`), a 255-bit prime. The value is the BLS12-381 group
order `x^4 - x^2 + 1`, where `x^2` is `glvB2`. -/
def frModulus : Nat :=
  0x73eda753299d7d483339d80809a1d80553bda402fffe5bfeffffffff00000001

/-- Modelled from the spec: the Go constant `fourWordBitSize`, the width of
four 64-bit limbs. -/
def fourWordBitSize : Nat := 256

/-- Modelled from the spec: `Fr.Mul`, the product `a·b mod r`. -/
def frMul (a b : Nat) : Nat := a * b % frModulus

/-- Modelled from the spec: `Fr.Sub`, the difference `a − b` reduced
modulo `r`. -/
def frSub (a b : Nat) : Nat := (a + (frModulus - b % frModulus)) % frModulus

/-- Modelled from the spec: `Fr.Neg`, the negation modulo `r`. -/
def frNeg (a : Nat) : Nat := (frModulus - a % frModulus) % frModulus

/-- Modelled from the spec: `Fr.Cmp`, the three-way comparison. -/
def frCmp (a b : Nat) : Int :=
  if a < b then -1 else if a = b then 0 else 1

/-! ## `glv.go` -/

/-- The Go variable `glvQ1`. -/
def glvQ1 : Nat := ofLimbs [0x63f6e522f6cfee30, 0x7c6becf1e01faadd, 0x1, 0]

/-- The Go variable `glvQ1Big`. -/
def glvQ1Big : Int := 0x017c6becf1e01faadd63f6e522f6cfee30

/-- The Go variable `glvQ2`. -/
def glvQ2 : Nat := ofLimbs [0x02, 0, 0, 0]

/-- The Go variable `glvQ2Big`. -/
def glvQ2Big : Int := 0x02

/-- The Go variable `glvB1`. -/
def glvB1 : Nat := ofLimbs [0x00000000ffffffff, 0xac45a4010001a402, 0, 0]

/-- The Go variable `glvB1Big`. -/
def glvB1Big : Int := 0xac45a4010001a40200000000ffffffff

/-- The Go variable `glvB2`. -/
def glvB2 : Nat := ofLimbs [0x0000000100000000, 0xac45a4010001a402, 0, 0]

/-- The Go variable `glvB2Big`. -/
def glvB2Big : Int := 0xac45a4010001a4020000000100000000

/-- The Go variable `glvLambda1`. -/
def glvLambda1 : Nat := ofLimbs [0x00000000ffffffff, 0xac45a4010001a402, 0, 0]

/-- The Go variable `glvLambda1Big`. -/
def glvLambda1Big : Int := 0xac45a4010001a40200000000ffffffff

/-- The Go variable `halfR`. -/
def halfR : Nat := ofLimbs [0, 0, 0, 0x8000000000000000, 0, 0, 0]

/-- The Go variable `halfRBig`. -/
def halfRBig : Int :=
  0x8000000000000000000000000000000000000000000000000000000000000000

/-- The Go variable `r128`. -/
def r128 : Nat := ofLimbs [0xffffffffffffffff, 0xffffffffffffffff, 0, 0]

/-- Modelled from the spec: `wideFr.mul`, the product of a scalar and a
lattice constant in the wide accumulator of seven 64-bit limbs. -/
def wideMul (a b : Nat) : Nat := a * b % 2 ^ 448

/-- Modelled from the spec: `wideFr.round`, the rounded right shift: add
`R/2` (the variable `halfR`) and shift right by 256 bits, the result being a
four-limb scalar. -/
def wideRound (w : Nat) : Nat := (w + halfR) % 2 ^ 448 / 2 ^ 256 % 2 ^ 256

/-- The Go type `glvVector`. -/
structure GlvVector where
  m1 : Nat
  m2 : Nat
  neg1 : Bool
  neg2 : Bool
  deriving DecidableEq, Repr

/-- The Go function `x2mr`. -/
def x2mr (m : Nat) : Nat :=
  wideRound (wideMul m glvQ1)

/-- The Go function `mr`. -/
def mr (m : Nat) : Nat :=
  wideRound (wideMul m glvQ2)

/-- The Go function `decompose`. -/
def decompose (m : Nat) : GlvVector :=
  let alpha1 := x2mr m
  let alpha2 := mr m
  let z1 := frMul alpha1 glvB1
  let z2 := frMul alpha2 glvB2
  let a1 := frSub (frSub m z1) alpha2
  let a2 := frSub z2 alpha1
  let neg1 := decide (frCmp a1 r128 = 1)
  let m1 := if neg1 then frNeg a1 else a1
  let neg2 := decide (frCmp a2 r128 = 1)
  let m2 := if neg2 then frNeg a2 else a2
  { m1 := m1, m2 := m2, neg1 := neg1, neg2 := neg2 }

/-- The Go function `decomposeBig`, on arbitrary-precision integers: the
pair `(a1, a2)`. -/
def decomposeBig (m : Int) : Int × Int :=
  let alpha1 := (m * glvQ1Big + halfRBig) / 2 ^ fourWordBitSize
  let alpha2 := (m * glvQ2Big + halfRBig) / 2 ^ fourWordBitSize
  let z1 := alpha1 * glvB1Big % (frModulus : Int)
  let z2 := alpha2 * glvB2Big % (frModulus : Int)
  let a1 := m - z1 - alpha2
  let a2 := z2 - alpha1
  (a1, a2)

/-- The signed value of a magnitude and its sign flag. -/
def signed (mag : Nat) (neg : Bool) : Int :=
  if neg then -(mag : Int) else (mag : Int)

/-! ## Auxiliary definitions of the development -/

/-- The field value `a·R⁻¹` that the Montgomery-form element `a` stands for. -/
def fieldVal (q a : Nat) : ZMod q := (a : ZMod q) * (rInv q : ZMod q)

/-- The integer pair `(a1, a2)` of the decomposition, before any reduction
modulo `r`: `a1 = m − alpha1·B1 − alpha2` and `a2 = alpha2·B2 − alpha1`. -/
def glvPair (m : Nat) : Int × Int :=
  ((m : Int) - (x2mr m : Int) * (glvB1 : Int) - (mr m : Int),
   (mr m : Int) * (glvB2 : Int) - (x2mr m : Int))

/-- Modular exponentiation by squaring over the `fuel` low bits of the
exponent: the accumulator times the base to the exponent, modulo `n`. -/
def powModAux (n : Nat) : Nat → Nat → Nat → Nat → Nat
  | 0, _, _, acc => acc
  | fuel + 1, b, e, acc =>
    if e = 0 then acc
    else powModAux n fuel (b * b % n) (e / 2) (if e % 2 = 1 then acc * b % n else acc)

/-- Modular exponentiation `a ^ e mod n` by squaring. -/
def powMod (a e n : Nat) : Nat :=
  powModAux n e (a % n) e (1 % n)

/-- The integer nearest to `m / r` (the specification's `round(m / r)`); for
odd `r` no quotient lies half-way between two integers. -/
def roundDiv (m r : Nat) : Nat := (2 * m + r) / (2 * r)

/-- The loop invariant of Phase 1 of `inverse` on input `e` with modulus `q`,
for a state in which the loop has not yet stopped: Kaliski's relations
`u·s + v·r = q`, `e·r ≡ −u·2^k` and `e·s ≡ v·2^k (mod q)`, with `u` and `v`
coprime, no carry recorded in `z`, and `r` within two moduli. -/
def Phase1Inv (q e : Nat) (st : InvState) : Prop :=
  1 ≤ st.u ∧ 1 ≤ st.s ∧ st.v ≤ q ∧ st.u * st.s + st.v * st.r = q ∧ st.r ≤ 2 * q ∧
  st.z = 0 ∧ st.found = false ∧ Nat.Coprime st.u st.v ∧
  (e : ZMod q) * (st.r : ZMod q) = -((st.u : ZMod q) * 2 ^ st.k) ∧
  (e : ZMod q) * (st.s : ZMod q) = (st.v : ZMod q) * 2 ^ st.k

/-! ## The Montgomery product in `ZMod q` -/

theorem two_mul_halfMod (q x : Nat) (hq : q % 2 = 1) :
    ((halfMod q x : Nat) : ZMod q) * 2 = (x : ZMod q) := by
  have h : halfMod q x * 2 = x ∨ halfMod q x * 2 = x + q := by
    unfold halfMod
    split <;> omega
  rcases h with h | h
  · have := congrArg (Nat.cast : Nat → ZMod q) h
    simpa using this
  · have := congrArg (Nat.cast : Nat → ZMod q) h
    simpa using this

theorem iterate_halfMod (q : Nat) (hq : q % 2 = 1) (n x : Nat) :
    (((halfMod q)^[n] x : Nat) : ZMod q) * 2 ^ n = (x : ZMod q) := by
  induction n generalizing x with
  | zero => simp
  | succ n ih =>
    rw [Function.iterate_succ_apply, pow_succ, ← mul_assoc, ih, two_mul_halfMod q x hq]

/-- The modelled `R⁻¹` is the inverse of `R = 2^384` modulo an odd `q`. -/
theorem rInv_mul_montR (q : Nat) (hq : q % 2 = 1) :
    ((rInv q : Nat) : ZMod q) * (montR : ZMod q) = 1 := by
  have h := iterate_halfMod q hq 384 1
  unfold rInv montR
  rw [ZMod.natCast_mod, Nat.cast_pow, Nat.cast_ofNat]
  rw [Nat.cast_one] at h
  exact h

theorem cast_mul (q a b : Nat) :
    ((mul q a b : Nat) : ZMod q) = (a : ZMod q) * b * rInv q := by
  unfold mul
  rw [ZMod.natCast_mod]
  push_cast
  rfl

theorem mul_lt (q a b : Nat) (hq : 0 < q) : mul q a b < q :=
  Nat.mod_lt _ hq

theorem eq_of_cast_eq (q a b : Nat) (ha : a < q) (hb : b < q)
    (h : (a : ZMod q) = (b : ZMod q)) : a = b := by
  have h1 : a ≡ b [MOD q] := (ZMod.natCast_eq_natCast_iff a b q).1 h
  exact Nat.ModEq.eq_of_lt_of_lt h1 ha hb

theorem cast_r1 (q : Nat) : ((r1 q : Nat) : ZMod q) = (montR : ZMod q) := by
  unfold r1
  rw [ZMod.natCast_mod]

theorem cast_r2 (q : Nat) : ((r2 q : Nat) : ZMod q) = (montR : ZMod q) * montR := by
  unfold r2
  rw [ZMod.natCast_mod]
  push_cast
  rfl

/-! ## Byte strings and validation -/

theorem beBytes_length (n v : Nat) : (beBytes n v).length = n := by
  induction n generalizing v with
  | zero => rfl
  | succ n ih => simp [beBytes, ih]

theorem feFromBytes_append (bs : List Byte) (b : Byte) :
    feFromBytes (bs ++ [b]) = feFromBytes bs * 256 + b.val := by
  simp [feFromBytes, List.foldl_append]

/-- Serialising the value of a byte string over as many bytes as the string
has gives the string back. -/
theorem beBytes_feFromBytes (bs : List Byte) :
    beBytes bs.length (feFromBytes bs) = bs := by
  induction bs using List.reverseRecOn with
  | nil => rfl
  | append_singleton bs b ih =>
    rw [feFromBytes_append, List.length_append, List.length_singleton, beBytes]
    have hb := b.isLt
    have h1 : (feFromBytes bs * 256 + b.val) / 256 = feFromBytes bs := by omega
    have h2 : (feFromBytes bs * 256 + b.val) % 256 = b.val := by omega
    rw [h1, ih]
    congr 2
    exact Fin.ext h2

theorem feCmp_eq_neg_one (a b : Nat) : feCmp a b = -1 ↔ a < b := by
  unfold feCmp
  split
  · simp [*]
  · split <;> simp [*]

theorem valid_iff (q a : Nat) : valid q a = true ↔ a < q := by
  unfold valid
  rw [beq_iff_eq, feCmp_eq_neg_one]

/-! ## Conversion to and from bytes -/

theorem fromMont_mul_r2 (q a : Nat) (hodd : q % 2 = 1) (ha : a < q) :
    fromMont q (toMont q a) = a := by
  have hq : 0 < q := by omega
  apply eq_of_cast_eq q _ _ (mul_lt q _ _ hq) ha
  show ((mul q (mul q a (r2 q)) 1 : Nat) : ZMod q) = a
  rw [cast_mul, cast_mul, cast_r2, Nat.cast_one]
  have h := rInv_mul_montR q hodd
  calc (a : ZMod q) * ((montR : ZMod q) * montR) * rInv q * 1 * rInv q
      = a * ((rInv q : ZMod q) * montR) * ((rInv q : ZMod q) * montR) := by ring
    _ = a := by rw [h]; ring

/-- C5: for every 48-byte buffer whose big-endian value is below the modulus,
`fromBytes` succeeds, and `toBytes` of the element it returns is the buffer
itself. -/
theorem toBytes_fromBytes (q : Nat) (hodd : q % 2 = 1) (b : List Byte)
    (hlen : b.length = 48) (hval : feFromBytes b < q) :
    ∃ x, fromBytes q b = Except.ok x ∧ toBytes q x = b := by
  refine ⟨mul q (feFromBytes b) (r2 q), ?_, ?_⟩
  · have hv : valid q (feFromBytes b) = true := (valid_iff q _).2 hval
    simp [fromBytes, hlen, hv]
  · unfold toBytes feBytes
    have h := fromMont_mul_r2 q (feFromBytes b) hodd hval
    unfold toMont at h
    rw [h, ← hlen]
    exact beBytes_feFromBytes b

theorem toBytes_fromBytes_witness :
    modulus % 2 = 1 ∧ (List.replicate 47 (0 : Byte) ++ [5]).length = 48 ∧
      feFromBytes (List.replicate 47 (0 : Byte) ++ [5]) < modulus ∧
      ∃ x, fromBytes modulus (List.replicate 47 (0 : Byte) ++ [5]) = Except.ok x ∧
        toBytes modulus x = List.replicate 47 (0 : Byte) ++ [5] :=
  ⟨by decide, by decide, by decide,
    toBytes_fromBytes modulus (by decide) _ (by decide) (by decide)⟩

/-- C6: `fromBytes` returns the length error for every input whose length is
not 48 bytes, the invalid-value error for every 48-byte input whose
big-endian value is at least the modulus, and an element (no error) for every
48-byte input whose value is below the modulus. -/
theorem fromBytes_errors (q : Nat) :
    (∀ b : List Byte, b.length ≠ 48 →
      fromBytes q b = Except.error FpError.invalidLength) ∧
    (∀ b : List Byte, b.length = 48 → q ≤ feFromBytes b →
      fromBytes q b = Except.error FpError.invalidValue) ∧
    (∀ b : List Byte, b.length = 48 → feFromBytes b < q →
      ∃ x, fromBytes q b = Except.ok x) := by
  refine ⟨?_, ?_, ?_⟩
  · intro b hlen
    simp [fromBytes, hlen]
  · intro b hlen hval
    have hv : valid q (feFromBytes b) = false := by
      rw [← Bool.not_eq_true, valid_iff]
      omega
    simp [fromBytes, hlen, hv]
  · intro b hlen hval
    have hv : valid q (feFromBytes b) = true := (valid_iff q _).2 hval
    exact ⟨mul q (feFromBytes b) (r2 q), by simp [fromBytes, hlen, hv]⟩

theorem fromBytes_errors_witness :
    fromBytes modulus (List.replicate 47 0) = Except.error FpError.invalidLength ∧
    fromBytes modulus (List.replicate 49 0) = Except.error FpError.invalidLength ∧
    fromBytes modulus (feBytes modulus) = Except.error FpError.invalidValue ∧
    fromBytes modulus (feBytes (modulus + 1)) = Except.error FpError.invalidValue ∧
    ∃ x, fromBytes modulus (feBytes (modulus - 1)) = Except.ok x :=
  ⟨(fromBytes_errors modulus).1 _ (by decide),
   (fromBytes_errors modulus).1 _ (by decide),
   (fromBytes_errors modulus).2.1 _ (by decide) (by decide),
   (fromBytes_errors modulus).2.1 _ (by decide) (by decide),
   (fromBytes_errors modulus).2.2 _ (by decide) (by decide)⟩

/-! ## The field value of a Montgomery-form element -/

theorem fieldVal_mul (q a b : Nat) :
    fieldVal q (mul q a b) = fieldVal q a * fieldVal q b := by
  unfold fieldVal
  rw [cast_mul]
  ring

theorem fieldVal_r1 (q : Nat) (hodd : q % 2 = 1) : fieldVal q (r1 q) = 1 := by
  unfold fieldVal
  rw [cast_r1, mul_comm]
  exact rInv_mul_montR q hodd

theorem eq_of_fieldVal_eq (q a b : Nat) (hodd : q % 2 = 1) (ha : a < q) (hb : b < q)
    (h : fieldVal q a = fieldVal q b) : a = b := by
  apply eq_of_cast_eq q a b ha hb
  have h1 := congrArg (fun x => x * (montR : ZMod q)) h
  simp only [fieldVal, mul_assoc, rInv_mul_montR q hodd, mul_one] at h1
  exact h1

theorem r1_lt (q : Nat) (hq : 0 < q) : r1 q < q := Nat.mod_lt _ hq

/-! ## Exponentiation -/

theorem expLoop_lt (q a e : Nat) (hq : 0 < q) (n z : Nat) (hz : z < q) :
    expLoop q a e n z < q := by
  induction n generalizing z with
  | zero => exact hz
  | succ i ih =>
    rw [expLoop]
    apply ih
    split
    · exact mul_lt q _ _ hq
    · exact mul_lt q _ _ hq

/-- The loop invariant of `exp`: with `n` iterations left the accumulator
holds the power whose exponent is the bits of `e` above position `n`. -/
theorem fieldVal_expLoop (q a e : Nat) (n z : Nat)
    (hz : fieldVal q z = fieldVal q a ^ (e / 2 ^ n)) :
    fieldVal q (expLoop q a e n z) = fieldVal q a ^ e := by
  induction n generalizing z with
  | zero => simpa [expLoop] using hz
  | succ i ih =>
    rw [expLoop]
    apply ih
    have hdiv : e / 2 ^ (i + 1) = e / 2 ^ i / 2 := by
      rw [pow_succ, Nat.div_div_eq_div_mul]
    rw [hdiv] at hz
    by_cases hb : bit e i = 1
    · rw [if_pos hb, fieldVal_mul, fieldVal_mul, hz, ← pow_add, ← pow_succ]
      unfold bit at hb
      congr 1
      omega
    · rw [if_neg hb, fieldVal_mul, hz, ← pow_add]
      unfold bit at hb
      congr 1
      omega

theorem lt_two_pow_bitLenAux (fuel e : Nat) (h : e ≤ fuel) :
    e < 2 ^ bitLenAux fuel e := by
  induction fuel generalizing e with
  | zero =>
    have : e = 0 := by omega
    subst this
    simp [bitLenAux]
  | succ fuel ih =>
    rw [bitLenAux]
    by_cases h0 : e = 0
    · subst h0; simp
    · rw [if_neg h0, pow_succ]
      have := ih (e / 2) (by omega)
      omega

theorem lt_two_pow_bitLen (e : Nat) : e < 2 ^ (bitLen e + 1) := by
  have h := lt_two_pow_bitLenAux e e (le_refl e)
  unfold bitLen
  rw [pow_succ]
  omega

/-- The element `exp(a, e)` stands for the `e`-th power of the field value
of `a`. -/
theorem fieldVal_exp (q a e : Nat) (hodd : q % 2 = 1) :
    fieldVal q (exp q a e) = fieldVal q a ^ e := by
  unfold exp
  apply fieldVal_expLoop
  rw [Nat.div_eq_of_lt (lt_two_pow_bitLen e), pow_zero]
  exact fieldVal_r1 q hodd

theorem exp_lt (q a e : Nat) (hq : 0 < q) : exp q a e < q :=
  expLoop_lt q a e hq _ _ (r1_lt q hq)

/-- C9: `exp` computes the Montgomery-form power by square-and-multiply, the
extra leading iteration at bit index `BitLen(e)` notwithstanding:
`exp(a, 0) = one()` and `exp(a, e+1) = mul(exp(a, e), a)` for every `e`, and
the field value of `exp(a, e)` is the `e`-th power of the field value of `a`
(for every `a`, in particular every field element `a < q`). -/
theorem exp_zero_succ (q a : Nat) (hodd : q % 2 = 1) :
    exp q a 0 = one q ∧ (∀ e : Nat, exp q a (e + 1) = mul q (exp q a e) a) ∧
      ∀ e : Nat, fieldVal q (exp q a e) = fieldVal q a ^ e := by
  have hq : 0 < q := by omega
  refine ⟨?_, ?_, fun e => fieldVal_exp q a e hodd⟩
  · apply eq_of_fieldVal_eq q _ _ hodd (exp_lt q a 0 hq) (r1_lt q hq)
    rw [fieldVal_exp q a 0 hodd, pow_zero]
    exact (fieldVal_r1 q hodd).symm
  · intro e
    apply eq_of_fieldVal_eq q _ _ hodd (exp_lt q a _ hq) (mul_lt q _ _ hq)
    rw [fieldVal_exp q a _ hodd, fieldVal_mul, fieldVal_exp q a _ hodd, pow_succ]

theorem exp_zero_succ_witness :
    modulus % 2 = 1 ∧ exp modulus 5 0 = one modulus ∧
      (∀ e : Nat, exp modulus 5 (e + 1) = mul modulus (exp modulus 5 e) 5) ∧
      ∀ e : Nat, fieldVal modulus (exp modulus 5 e) = fieldVal modulus 5 ^ e :=
  ⟨by decide, exp_zero_succ modulus 5 (by decide)⟩

/-- C10: `exp(a, 2)`, `square(a)` and `mul(a, a)` are the same element (for
every `a`, in particular every field element `a < q`). -/
theorem exp_two_eq_square (q a : Nat) (hodd : q % 2 = 1) :
    exp q a 2 = square q a ∧ square q a = mul q a a := by
  have hq : 0 < q := by omega
  refine ⟨?_, rfl⟩
  apply eq_of_fieldVal_eq q _ _ hodd (exp_lt q a 2 hq) (mul_lt q _ _ hq)
  rw [fieldVal_exp q a 2 hodd]
  show _ = fieldVal q (mul q a a)
  rw [fieldVal_mul, pow_two]

theorem exp_two_eq_square_witness :
    modulus % 2 = 1 ∧ exp modulus 5 2 = square modulus 5 ∧
      square modulus 5 = mul modulus 5 5 :=
  ⟨by decide, exp_two_eq_square modulus 5 (by decide)⟩

/-! ## Pocklington's criterion -/

theorem powModAux_eq (n : Nat) (fuel b e acc : Nat) (he : e < 2 ^ fuel) :
    powModAux n fuel b e acc % n = acc * b ^ e % n := by
  induction fuel generalizing b e acc with
  | zero =>
    have : e = 0 := by simpa using he
    subst this
    simp [powModAux]
  | succ fuel ih =>
    rw [powModAux]
    by_cases h0 : e = 0
    · subst h0
      simp
    rw [if_neg h0, ih _ _ _ (by rw [pow_succ] at he; omega)]
    have hsplit : b ^ e = (b * b) ^ (e / 2) * b ^ (e % 2) := by
      rw [← pow_two, ← pow_mul, ← pow_add]
      congr 1
      omega
    rw [hsplit]
    have hbb : (b * b % n) ^ (e / 2) % n = (b * b) ^ (e / 2) % n := by
      rw [Nat.pow_mod, Nat.mod_mod, ← Nat.pow_mod]
    by_cases hodd : e % 2 = 1
    · rw [if_pos hodd, hodd, pow_one]
      calc acc * b % n * (b * b % n) ^ (e / 2) % n
          = (acc * b % n) * ((b * b % n) ^ (e / 2) % n) % n := by
            rw [Nat.mul_mod, Nat.mod_mod]
        _ = (acc * b % n) * ((b * b) ^ (e / 2) % n) % n := by rw [hbb]
        _ = acc * b * (b * b) ^ (e / 2) % n := by rw [← Nat.mul_mod]
        _ = acc * ((b * b) ^ (e / 2) * b) % n := by ring_nf
    · have h0 : e % 2 = 0 := by omega
      rw [if_neg hodd, h0, pow_zero, mul_one]
      calc acc * (b * b % n) ^ (e / 2) % n
          = (acc % n) * ((b * b % n) ^ (e / 2) % n) % n := by rw [Nat.mul_mod]
        _ = (acc % n) * ((b * b) ^ (e / 2) % n) % n := by rw [hbb]
        _ = acc * (b * b) ^ (e / 2) % n := by rw [← Nat.mul_mod]

theorem powMod_mod (a e n : Nat) : powMod a e n % n = a ^ e % n := by
  unfold powMod
  rw [powModAux_eq n _ _ _ _ (Nat.lt_two_pow e)]
  rw [Nat.mul_mod, Nat.mod_mod, Nat.pow_mod, Nat.mod_mod, ← Nat.pow_mod, ← Nat.mul_mod, one_mul]

/-- One prime of a Pocklington certificate: if `p` is a prime factor of
`N − 1` and `a` satisfies `a^(N−1) ≡ 1` modulo `N` while `a^((N−1)/p) − 1` has
an inverse `u` modulo `N`, then every prime factor `d` of `N` is `1` modulo
`p`. -/
theorem pocklington_step (N p a u : Nat) (hN : 1 < N) (hp : p.Prime) (hpN : p ∣ N - 1)
    (h1 : powMod a (N - 1) N = 1)
    (h2 : (powMod a ((N - 1) / p) N + (N - 1)) * u % N = 1) :
    ∀ d : Nat, d.Prime → d ∣ N → p ∣ d - 1 := by
  intro d hd hdN
  haveI : Fact d.Prime := ⟨hd⟩
  have hd2 : 2 ≤ d := hd.two_le
  -- `a ^ (N - 1)` is `1` modulo `d`
  have e1 : a ^ (N - 1) % N = 1 := by
    rw [← powMod_mod, h1, Nat.mod_eq_of_lt hN]
  have e1d : ((a : ZMod d)) ^ (N - 1) = 1 := by
    have : a ^ (N - 1) % d = 1 % d := by
      rw [← Nat.mod_mod_of_dvd _ hdN, e1]
    have h := (ZMod.natCast_eq_natCast_iff' (a ^ (N - 1)) 1 d).2 this
    simpa using h
  -- `a ^ ((N - 1) / p)` is not `1` modulo `d`
  have e2d : ((a : ZMod d)) ^ ((N - 1) / p) ≠ 1 := by
    intro hcon
    have hmod : a ^ ((N - 1) / p) % d = 1 % d := by
      apply (ZMod.natCast_eq_natCast_iff' (a ^ ((N - 1) / p)) 1 d).1
      simpa using hcon
    have hy : powMod a ((N - 1) / p) N % d = 1 % d := by
      rw [← Nat.mod_mod_of_dvd _ hdN, powMod_mod, Nat.mod_mod_of_dvd _ hdN, hmod]
    have hdvd : d ∣ powMod a ((N - 1) / p) N + (N - 1) := by
      have hN1 : (N - 1) % d = (d - 1) % d := by
        obtain ⟨c, hc⟩ := hdN
        have hcpos : 0 < c := by
          rcases Nat.eq_zero_or_pos c with h0 | h0
          · subst h0; omega
          · exact h0
        have : N - 1 = d - 1 + d * (c - 1) := by
          obtain ⟨c', rfl⟩ : ∃ c', c = c' + 1 := ⟨c - 1, by omega⟩
          rw [hc, Nat.mul_succ]
          simp only [Nat.add_sub_cancel]
          omega
        rw [this, Nat.add_mul_mod_self_left]
      rw [Nat.dvd_iff_mod_eq_zero, Nat.add_mod, hy, hN1, ← Nat.add_mod]
      have : 1 + (d - 1) = d := by omega
      rw [this, Nat.mod_self]
    have hg : d ∣ (powMod a ((N - 1) / p) N + (N - 1)) * u % N :=
      (Nat.dvd_mod_iff hdN).2 (Dvd.dvd.mul_right hdvd u)
    rw [h2] at hg
    have := Nat.le_of_dvd one_pos hg
    omega
  have hx0 : (a : ZMod d) ≠ 0 := by
    intro h0
    rw [h0, zero_pow (by omega : N - 1 ≠ 0)] at e1d
    exact zero_ne_one e1d
  have ho1 : orderOf (a : ZMod d) ∣ N - 1 := orderOf_dvd_of_pow_eq_one e1d
  have ho2 : ¬ orderOf (a : ZMod d) ∣ (N - 1) / p := fun h =>
    e2d (orderOf_dvd_iff_pow_eq_one.1 h)
  have ho3 : orderOf (a : ZMod d) ∣ d - 1 := ZMod.orderOf_dvd_card_sub_one hx0
  have hpo : p ∣ orderOf (a : ZMod d) := by
    by_contra hnot
    have hcop : Nat.Coprime (orderOf (a : ZMod d)) p :=
      (Nat.Coprime.symm ((Nat.Prime.coprime_iff_not_dvd hp).2 hnot))
    have hmul : N - 1 = p * ((N - 1) / p) := (Nat.mul_div_cancel' hpN).symm
    rw [hmul] at ho1
    exact ho2 (hcop.dvd_of_dvd_mul_left ho1)
  exact dvd_trans hpo ho3

/-- Pocklington's criterion: if every prime factor of `N` is `1` modulo `F`
and `N < (F + 1)²`, then `N` is prime. -/
theorem pocklington (N F : Nat) (hN : 1 < N) (hsq : N < (F + 1) * (F + 1))
    (hF : ∀ d : Nat, d.Prime → d ∣ N → F ∣ d - 1) : N.Prime := by
  by_contra hnp
  have hd : (Nat.minFac N).Prime := Nat.minFac_prime (by omega)
  have hdN : Nat.minFac N ∣ N := Nat.minFac_dvd N
  have hle : Nat.minFac N ^ 2 ≤ N := Nat.minFac_sq_le_self (by omega) hnp
  have hFd := hF _ hd hdN
  have h2 := hd.two_le
  have : F ≤ Nat.minFac N - 1 := Nat.le_of_dvd (by omega) hFd
  have h3 : F + 1 ≤ Nat.minFac N := by omega
  have : (F + 1) * (F + 1) ≤ Nat.minFac N ^ 2 := by
    rw [pow_two]; exact Nat.mul_le_mul h3 h3
  omega

/-- Two coprime moduli of a Pocklington certificate combine. -/
theorem pocklington_mul (N A B : Nat) (hAB : Nat.Coprime A B)
    (hA : ∀ d : Nat, d.Prime → d ∣ N → A ∣ d - 1)
    (hB : ∀ d : Nat, d.Prime → d ∣ N → B ∣ d - 1) :
    ∀ d : Nat, d.Prime → d ∣ N → A * B ∣ d - 1 :=
  fun d hd hdN => Nat.Coprime.mul_dvd_of_dvd_of_dvd hAB (hA d hd hdN) (hB d hd hdN)

/-! ## Primality of the modulus

The chain of certificates: `q − 1` has the 234-bit prime factor `p234`,
`p234 − 1` the 120-bit prime factor `p120`, `p120 − 1` the 72-bit prime factor
`p72`, `p72 − 1` the prime factors `p34 = 13090036741` and `755057`, and
`p34 − 1` the prime factor `421987`. -/

theorem prime_421987 : Nat.Prime 421987 := by norm_num

theorem prime_755057 : Nat.Prime 755057 := by norm_num

theorem prime_p34 : Nat.Prime 13090036741 :=
  pocklington 13090036741 421987 (by decide) (by decide)
    (pocklington_step 13090036741 421987 2
      9508339913
      (by decide) prime_421987 (by decide) (by rfl) (by rfl))

theorem prime_p72 : Nat.Prime 3819663927398918131021 :=
  pocklington 3819663927398918131021 (13090036741 * 755057) (by decide) (by decide)
    (pocklington_mul 3819663927398918131021 13090036741 755057 (by norm_num)
    (pocklington_step 3819663927398918131021 13090036741 2
      493108134941997590084
      (by decide) prime_p34 (by decide) (by rfl) (by rfl))
    (pocklington_step 3819663927398918131021 755057 2
      1757223884106591266314
      (by decide) prime_755057 (by decide) (by rfl) (by rfl)))

theorem prime_p120 : Nat.Prime 1125266252156850182658904441386709967 :=
  pocklington 1125266252156850182658904441386709967 3819663927398918131021 (by decide) (by decide)
    (pocklington_step 1125266252156850182658904441386709967 3819663927398918131021 2
      363966040104148855705611644974454555
      (by decide) prime_p72 (by decide) (by rfl) (by rfl))

theorem prime_p234 :
    Nat.Prime 15778400344354997994418419698270088123916926905054652752758194827714659 :=
  pocklington 15778400344354997994418419698270088123916926905054652752758194827714659
    1125266252156850182658904441386709967 (by decide) (by decide)
    (pocklington_step 15778400344354997994418419698270088123916926905054652752758194827714659
      1125266252156850182658904441386709967 2
      8254959361366692087094521958599552736149856986728481575631050697403242
      (by decide) prime_p120 (by decide) (by rfl) (by rfl))

/-- The BLS12-381 modulus is prime, by a chain of Pocklington certificates. -/
theorem modulus_prime : Nat.Prime modulus :=
  pocklington modulus 15778400344354997994418419698270088123916926905054652752758194827714659
    (by decide) (by decide)
    (pocklington_step modulus
      15778400344354997994418419698270088123916926905054652752758194827714659 2
      2187498333999863193215640476378758310847690922566267545269384146546613166935166697200060931464500123887301765890575
      (by decide) prime_p234 (by decide)
      (by rfl) (by rfl))

/-! ## Square roots -/

/-- The check at the end of `sqrt`: the flag is set exactly when the square
of the candidate left in `c` is the input. -/
theorem sqrt_fst_iff (q a : Nat) :
    (sqrt q a).1 = true ↔ square q (sqrt q a).2 = a := by
  unfold sqrt equal
  simp only [beq_iff_eq]
  exact eq_comm

/-- C7: when the modulus is a prime with `q ≡ 3 (mod 4)` and the element `a`
is the square of an element `b`, `sqrt` reports `true` and leaves in `c` a
value whose square is `a`; the exponent used is `pPlus1Over4 = (q+1)/4`. -/
theorem sqrt_of_square (q : Nat) (hp : q.Prime) (h3 : q % 4 = 3) (a b : Nat)
    (hab : a = square q b) :
    (sqrt q a).1 = true ∧ square q (sqrt q a).2 = a := by
  have hodd : q % 2 = 1 := by omega
  have hq : 0 < q := by omega
  haveI : Fact q.Prime := ⟨hp⟩
  have hsq : square q (sqrt q a).2 = a := by
    have ha : a < q := by rw [hab]; exact mul_lt q _ _ hq
    apply eq_of_fieldVal_eq q _ _ hodd (mul_lt q _ _ hq) ha
    show fieldVal q (mul q (exp q a (pPlus1Over4 q)) (exp q a (pPlus1Over4 q))) = _
    have hva : fieldVal q a = fieldVal q b * fieldVal q b := by
      rw [hab]; exact fieldVal_mul q b b
    rw [fieldVal_mul, fieldVal_exp q a _ hodd, ← pow_add, hva, ← pow_two, ← pow_mul]
    have he : 2 * (pPlus1Over4 q + pPlus1Over4 q) = q + 1 := by
      unfold pPlus1Over4; omega
    rw [he, pow_succ, ZMod.pow_card, pow_two]
  exact ⟨(sqrt_fst_iff q a).2 hsq, hsq⟩

theorem sqrt_of_square_witness :
    Nat.Prime modulus ∧ modulus % 4 = 3 ∧ square modulus 3 = square modulus 3 ∧
      (sqrt modulus (square modulus 3)).1 = true ∧
      square modulus (sqrt modulus (square modulus 3)).2 = square modulus 3 :=
  ⟨modulus_prime, by decide, rfl,
    sqrt_of_square modulus modulus_prime (by decide) (square modulus 3) 3 rfl⟩

/-- The modelled `R⁻¹` is a square modulo an odd `q`: it is the square of the
inverse of `2^192`. -/
theorem rInv_eq_sq (q : Nat) (hodd : q % 2 = 1) :
    ((rInv q : Nat) : ZMod q) =
      (((halfMod q)^[192] 1 : Nat) : ZMod q) * (((halfMod q)^[192] 1 : Nat) : ZMod q) := by
  have h := iterate_halfMod q hodd 192 1
  rw [Nat.cast_one] at h
  have hR : (montR : ZMod q) = 2 ^ 192 * 2 ^ 192 := by
    unfold montR
    rw [Nat.cast_pow, Nat.cast_ofNat, ← pow_add]
  have h1 := rInv_mul_montR q hodd
  set t : ZMod q := (((halfMod q)^[192] 1 : Nat) : ZMod q) with ht
  calc ((rInv q : Nat) : ZMod q)
      = (rInv q : ZMod q) * ((t * 2 ^ 192) * (t * 2 ^ 192)) := by rw [h]; ring
    _ = ((rInv q : ZMod q) * (montR : ZMod q)) * (t * t) := by rw [hR]; ring
    _ = t * t := by rw [h1]; ring

/-- C8: whenever `sqrt` reports `true` the value left in `c` squares to `a`;
hence `sqrt` reports `false` for every `a` that is not the square of an
element, and in particular for every quadratic non-residue `a` of the
modulus (every `a`, so every field element `a < q`). -/
theorem sqrt_sound (q a : Nat) (hodd : q % 2 = 1) :
    ((sqrt q a).1 = true → square q (sqrt q a).2 = a) ∧
    ((¬ ∃ b : Nat, square q b = a) → (sqrt q a).1 = false) ∧
    ((¬ ∃ y : Nat, y * y % q = a % q) → (sqrt q a).1 = false) := by
  refine ⟨(sqrt_fst_iff q a).1, ?_, ?_⟩
  · intro hno
    rw [← Bool.not_eq_true]
    intro ht
    exact hno ⟨_, (sqrt_fst_iff q a).1 ht⟩
  · intro hno
    rw [← Bool.not_eq_true]
    intro ht
    apply hno
    have hsq := (sqrt_fst_iff q a).1 ht
    refine ⟨(sqrt q a).2 * (halfMod q)^[192] 1, ?_⟩
    rw [← ZMod.natCast_eq_natCast_iff']
    have hc : ((square q (sqrt q a).2 : Nat) : ZMod q) = (a : ZMod q) := by rw [hsq]
    rw [← hc]
    show _ = ((mul q (sqrt q a).2 (sqrt q a).2 : Nat) : ZMod q)
    rw [cast_mul, rInv_eq_sq q hodd]
    push_cast
    ring

/-- The raw value `q − 1` is a quadratic non-residue of the BLS12-381 modulus,
which is `3` modulo `4`. -/
theorem modulus_sub_one_nonresidue :
    ¬ ∃ y : Nat, y * y % modulus = (modulus - 1) % modulus := by
  rintro ⟨y, hy⟩
  have hJ : jacobiSym (-1) modulus = -1 := by
    rw [jacobiSym.at_neg_one (Nat.odd_iff.2 (by decide))]
    exact ZMod.χ₄_nat_three_mod_four (by decide)
  apply ZMod.nonsquare_of_jacobiSym_eq_neg_one hJ
  refine ⟨(y : ZMod modulus), ?_⟩
  have h := (ZMod.natCast_eq_natCast_iff' (y * y) (modulus - 1) modulus).2 hy
  rw [Nat.cast_sub (by decide : 1 ≤ modulus), ZMod.natCast_self] at h
  push_cast at h ⊢
  rw [h]
  ring

theorem sqrt_sound_witness :
    modulus % 2 = 1 ∧ (¬ ∃ y : Nat, y * y % modulus = (modulus - 1) % modulus) ∧
      (sqrt modulus (modulus - 1)).1 = false :=
  ⟨by decide, modulus_sub_one_nonresidue,
    (sqrt_sound modulus (modulus - 1) (by decide)).2.2 modulus_sub_one_nonresidue⟩

/-! ## The GLV decomposition -/

theorem glvQ1_eq : glvQ1 = 0x017c6becf1e01faadd63f6e522f6cfee30 := by decide
theorem glvQ2_eq : glvQ2 = 2 := by decide
theorem glvB1_eq : glvB1 = 0xac45a4010001a40200000000ffffffff := by decide
theorem glvB2_eq : glvB2 = 0xac45a4010001a4020000000100000000 := by decide
theorem glvLambda1_eq : glvLambda1 = 0xac45a4010001a40200000000ffffffff := by decide
theorem halfR_eq : halfR = 2 ^ 255 := by decide
theorem r128_eq : r128 = 2 ^ 128 - 1 := by decide

/-- The order `r` is `x⁴ − x² + 1` for `x² = glvB2`, and `glvQ1` is the integer
part of `x²·2^256 / r`, as the comments of `glv.go` say. -/
theorem frModulus_eq :
    frModulus = glvB2 * glvB2 - glvB2 + 1 ∧ glvQ1 = glvB2 * 2 ^ 256 / frModulus := by
  decide

theorem x2mr_spec (m : Nat) (hm : m < frModulus) :
    2 ^ 256 * x2mr m ≤ m * 0x017c6becf1e01faadd63f6e522f6cfee30 + 2 ^ 255 ∧
    m * 0x017c6becf1e01faadd63f6e522f6cfee30 + 2 ^ 255 < 2 ^ 256 * (x2mr m + 1) := by
  unfold x2mr wideRound wideMul
  rw [glvQ1_eq, halfR_eq]
  unfold frModulus at hm
  have h1 : m * 0x017c6becf1e01faadd63f6e522f6cfee30 < 2 ^ 448 := by omega
  have h2 : m * 0x017c6becf1e01faadd63f6e522f6cfee30 + 2 ^ 255 < 2 ^ 448 := by omega
  have h3 : (m * 0x017c6becf1e01faadd63f6e522f6cfee30 + 2 ^ 255) / 2 ^ 256 < 2 ^ 256 := by
    omega
  rw [Nat.mod_eq_of_lt h1, Nat.mod_eq_of_lt h2, Nat.mod_eq_of_lt h3]
  omega

theorem mr_spec (m : Nat) (hm : m < frModulus) :
    mr m = if m < 2 ^ 254 then 0 else 1 := by
  unfold mr wideRound wideMul
  rw [glvQ2_eq, halfR_eq]
  unfold frModulus at hm
  have h1 : m * 2 < 2 ^ 448 := by omega
  have h2 : m * 2 + 2 ^ 255 < 2 ^ 448 := by omega
  have h3 : (m * 2 + 2 ^ 255) / 2 ^ 256 < 2 ^ 256 := by omega
  rw [Nat.mod_eq_of_lt h1, Nat.mod_eq_of_lt h2, Nat.mod_eq_of_lt h3]
  split <;> omega


/-- The first component before the sign test: with `P = alpha1·B1 + alpha2`,
either `P ≤ m` and `a1 = m − P` is at most `2^128 − 1`, or `m < P` and `a1`
is `r − (P − m)` with `P − m` at most `2^128 − 1`. -/
theorem decompose_a1 (m : Nat) (hm : m < frModulus) :
    (x2mr m * glvB1 + mr m ≤ m ∧ m - (x2mr m * glvB1 + mr m) ≤ 2 ^ 128 - 1 ∧
      frSub (frSub m (frMul (x2mr m) glvB1)) (mr m) = m - (x2mr m * glvB1 + mr m)) ∨
    (m < x2mr m * glvB1 + mr m ∧ x2mr m * glvB1 + mr m - m ≤ 2 ^ 128 - 1 ∧
      frSub (frSub m (frMul (x2mr m) glvB1)) (mr m) =
        frModulus - (x2mr m * glvB1 + mr m - m)) := by
  obtain ⟨h1, h2⟩ := x2mr_spec m hm
  have hB := mr_spec m hm
  generalize x2mr m = A at h1 h2 ⊢
  generalize mr m = B at hB ⊢
  unfold frSub frMul
  rw [glvB1_eq]
  unfold frModulus at hm ⊢
  have hz : A * 0xac45a4010001a40200000000ffffffff <
      0x73eda753299d7d483339d80809a1d80553bda402fffe5bfeffffffff00000001 := by omega
  rw [Nat.mod_eq_of_lt hz]
  have hB' : B ≤ 1 := by split at hB <;> omega
  have hlo : m ≤ A * 0xac45a4010001a40200000000ffffffff + B + (2 ^ 128 - 1) := by
    split at hB <;> omega
  have hhi : A * 0xac45a4010001a40200000000ffffffff + B ≤ m + (2 ^ 128 - 1) := by
    split at hB <;> omega
  omega

/-- The second component before the sign test: with `Z = alpha2·B2`, either
`alpha1 ≤ Z` and `a2 = Z − alpha1` is at most `2^128 − 1`, or `Z < alpha1`
and `a2` is `r − (alpha1 − Z)` with `alpha1 − Z` at most `2^128 − 1`. -/
theorem decompose_a2 (m : Nat) (hm : m < frModulus) :
    (x2mr m ≤ mr m * glvB2 ∧ mr m * glvB2 - x2mr m ≤ 2 ^ 128 - 1 ∧
      frSub (frMul (mr m) glvB2) (x2mr m) = mr m * glvB2 - x2mr m) ∨
    (mr m * glvB2 < x2mr m ∧ x2mr m - mr m * glvB2 ≤ 2 ^ 128 - 1 ∧
      frSub (frMul (mr m) glvB2) (x2mr m) = frModulus - (x2mr m - mr m * glvB2)) := by
  obtain ⟨h1, h2⟩ := x2mr_spec m hm
  have hB := mr_spec m hm
  generalize x2mr m = A at h1 h2 ⊢
  generalize mr m = B at hB ⊢
  unfold frSub frMul
  rw [glvB2_eq]
  unfold frModulus at hm ⊢
  have hB' : B ≤ 1 := by split at hB <;> omega
  have hz : B * 0xac45a4010001a4020000000100000000 <
      0x73eda753299d7d483339d80809a1d80553bda402fffe5bfeffffffff00000001 := by omega
  rw [Nat.mod_eq_of_lt hz]
  have hlo : A ≤ B * 0xac45a4010001a4020000000100000000 + (2 ^ 128 - 1) := by
    split at hB <;> omega
  have hhi : B * 0xac45a4010001a4020000000100000000 ≤ A + (2 ^ 128 - 1) := by
    split at hB <;> omega
  omega

/-- The sign test and conditional negation of `decompose` on a value that is
either a magnitude `t ≤ 2^128 − 1` or the residue `r − t` of its negative:
the flag tells the two apart and the magnitude stored is `t`. -/
theorem sign_split_pos (a : Nat) (ha : a ≤ 2 ^ 128 - 1) :
    decide (frCmp a r128 = 1) = false ∧
      (if decide (frCmp a r128 = 1) then frNeg a else a) = a := by
  have h : decide (frCmp a r128 = 1) = false := by
    rw [decide_eq_false_iff_not, r128_eq]
    unfold frCmp
    split
    · decide
    · split
      · decide
      · omega
  rw [h]
  exact ⟨rfl, rfl⟩

theorem sign_split_neg (t : Nat) (ht : t ≤ 2 ^ 128 - 1) :
    decide (frCmp (frModulus - t) r128 = 1) = true ∧
      (if decide (frCmp (frModulus - t) r128 = 1) then frNeg (frModulus - t)
        else frModulus - t) = t := by
  have h : decide (frCmp (frModulus - t) r128 = 1) = true := by
    rw [decide_eq_true_iff, r128_eq]
    unfold frCmp frModulus
    split
    · omega
    · split
      · omega
      · rfl
  rw [h]
  refine ⟨rfl, ?_⟩
  simp only [if_true]
  unfold frNeg frModulus
  omega

/-- The sign test and the conditional negation of `decompose`, for a residue
`a` that stands for the integer `x − y` of magnitude at most `2^128 − 1`. -/
theorem sign_split (a x y : Nat)
    (h : (y ≤ x ∧ x - y ≤ 2 ^ 128 - 1 ∧ a = x - y) ∨
         (x < y ∧ y - x ≤ 2 ^ 128 - 1 ∧ a = frModulus - (y - x))) :
    decide (frCmp a r128 = 1) = decide ((x : Int) - (y : Int) < 0) ∧
    (if decide (frCmp a r128 = 1) then frNeg a else a) = ((x : Int) - (y : Int)).natAbs ∧
    ((x : Int) - (y : Int)).natAbs ≤ 2 ^ 128 - 1 := by
  rcases h with ⟨hle, hb, he⟩ | ⟨hlt, hb, he⟩
  · subst he
    obtain ⟨hs1, hs2⟩ := sign_split_pos _ hb
    refine ⟨?_, ?_, ?_⟩
    · rw [hs1]; symm; rw [decide_eq_false_iff_not]; omega
    · rw [hs2]; omega
    · omega
  · subst he
    obtain ⟨hs1, hs2⟩ := sign_split_neg _ hb
    refine ⟨?_, ?_, ?_⟩
    · rw [hs1]; symm; rw [decide_eq_true_iff]; omega
    · rw [hs2]; omega
    · omega

theorem glvPair_fst (m : Nat) :
    (glvPair m).1 = (m : Int) - ((x2mr m * glvB1 + mr m : Nat) : Int) := by
  unfold glvPair
  push_cast
  ring

theorem glvPair_snd (m : Nat) :
    (glvPair m).2 = ((mr m * glvB2 : Nat) : Int) - ((x2mr m : Nat) : Int) := by
  unfold glvPair
  push_cast
  ring

/-- The fixed-width `decompose` returns the magnitudes and the signs of the
integer pair, and both magnitudes are at most `2^128 − 1`. -/
theorem decompose_eq_glvPair (m : Nat) (hm : m < frModulus) :
    decompose m =
      { m1 := (glvPair m).1.natAbs, m2 := (glvPair m).2.natAbs,
        neg1 := decide ((glvPair m).1 < 0), neg2 := decide ((glvPair m).2 < 0) } ∧
    (glvPair m).1.natAbs ≤ 2 ^ 128 - 1 ∧ (glvPair m).2.natAbs ≤ 2 ^ 128 - 1 := by
  have h1 := sign_split _ m (x2mr m * glvB1 + mr m) (decompose_a1 m hm)
  have h2 := sign_split _ (mr m * glvB2) (x2mr m) (decompose_a2 m hm)
  rw [← glvPair_fst] at h1
  rw [← glvPair_snd] at h2
  refine ⟨?_, h1.2.2, h2.2.2⟩
  unfold decompose
  simp only
  rw [h1.2.1, h2.2.1, h1.1, h2.1]

/-- The big-integer `decomposeBig` returns the integer pair itself. -/
theorem decomposeBig_eq_glvPair (m : Nat) (hm : m < frModulus) :
    decomposeBig (m : Int) = glvPair m := by
  obtain ⟨h1, h2⟩ := x2mr_spec m hm
  have hB := mr_spec m hm
  unfold decomposeBig glvPair
  simp only [glvQ1Big, glvQ2Big, glvB1Big, glvB2Big, halfRBig, fourWordBitSize]
  rw [glvB1_eq, glvB2_eq]
  have hp : (2 : Int) ^ 256 = 115792089237316195423570985008687907853269984665640564039457584007913129639936 := by norm_num
  rw [hp]
  generalize x2mr m = A at h1 h2 ⊢
  generalize mr m = B at hB ⊢
  unfold frModulus at hm ⊢
  have hA : ((m : Int) * 0x017c6becf1e01faadd63f6e522f6cfee30 +
      0x8000000000000000000000000000000000000000000000000000000000000000) / 115792089237316195423570985008687907853269984665640564039457584007913129639936
      = (A : Int) := by omega
  have hB2 : ((m : Int) * 0x02 +
      0x8000000000000000000000000000000000000000000000000000000000000000) / 115792089237316195423570985008687907853269984665640564039457584007913129639936
      = (B : Int) := by split at hB <;> omega
  rw [hA, hB2]
  have hB' : B ≤ 1 := by split at hB <;> omega
  have hz1 : (A : Int) * 0xac45a4010001a40200000000ffffffff %
      ((0x73eda753299d7d483339d80809a1d80553bda402fffe5bfeffffffff00000001 : Nat) : Int)
      = (A : Int) * 0xac45a4010001a40200000000ffffffff := by omega
  have hz2 : (B : Int) * 0xac45a4010001a4020000000100000000 %
      ((0x73eda753299d7d483339d80809a1d80553bda402fffe5bfeffffffff00000001 : Nat) : Int)
      = (B : Int) * 0xac45a4010001a4020000000100000000 := by omega
  rw [hz1, hz2]
  push_cast
  rfl

/-- The signed values of the two components that `decompose` returns are the
integer pair. -/
theorem signed_decompose (m : Nat) (hm : m < frModulus) :
    signed (decompose m).m1 (decompose m).neg1 = (glvPair m).1 ∧
    signed (decompose m).m2 (decompose m).neg2 = (glvPair m).2 := by
  rw [(decompose_eq_glvPair m hm).1]
  unfold signed
  constructor
  · by_cases h : (glvPair m).1 < 0
    · simp only [h, decide_True, if_true]; omega
    · simp only [h, decide_False]; simp only [Bool.false_eq_true, if_false]; omega
  · by_cases h : (glvPair m).2 < 0
    · simp only [h, decide_True, if_true]; omega
    · simp only [h, decide_False]; simp only [Bool.false_eq_true, if_false]; omega

/-- The integer pair recombines to `m` modulo `r` with the second component
entering with a minus sign: `a1 − a2·λ = m − alpha2·r`. -/
theorem glvPair_recombine (m : Nat) (hm : m < frModulus) :
    ((glvPair m).1 - (glvPair m).2 * (glvLambda1 : Int)) % (frModulus : Int) = (m : Int) := by
  have hB := mr_spec m hm
  unfold glvPair
  simp only
  rw [glvB1_eq, glvB2_eq, glvLambda1_eq]
  generalize x2mr m = A
  generalize mr m = B at hB ⊢
  unfold frModulus at hm ⊢
  have hB' : B ≤ 1 := by split at hB <;> omega
  have e : ((m : Int) - (A : Int) * ((0xac45a4010001a40200000000ffffffff : Nat) : Int) - (B : Int) -
      ((B : Int) * ((0xac45a4010001a4020000000100000000 : Nat) : Int) - (A : Int)) *
        ((0xac45a4010001a40200000000ffffffff : Nat) : Int))
      = (m : Int) - (B : Int) *
        ((0x73eda753299d7d483339d80809a1d80553bda402fffe5bfeffffffff00000001 : Nat) : Int) := by
    push_cast
    ring
  rw [e]
  omega

/-- C2 (as stated it fails; amended): the two signed components recombine to
`m` modulo `r` with the eigenvalue `glvLambda1` entering with a minus sign,
`(signed(m1) − signed(m2)·λ) mod r = m`, because `decompose` computes
`a2 = z2 − alpha1`. -/
theorem decompose_recombine_minus (m : Nat) (hm : m < frModulus) :
    (signed (decompose m).m1 (decompose m).neg1 -
        signed (decompose m).m2 (decompose m).neg2 * (glvLambda1 : Int)) %
      (frModulus : Int) = (m : Int) := by
  rw [(signed_decompose m hm).1, (signed_decompose m hm).2]
  exact glvPair_recombine m hm

theorem decompose_recombine_minus_witness :
    2 ^ 128 < frModulus ∧
    (signed (decompose (2 ^ 128)).m1 (decompose (2 ^ 128)).neg1 -
        signed (decompose (2 ^ 128)).m2 (decompose (2 ^ 128)).neg2 * (glvLambda1 : Int)) %
      (frModulus : Int) = ((2 ^ 128 : Nat) : Int) :=
  ⟨by decide, decompose_recombine_minus (2 ^ 128) (by decide)⟩

/-- C2, as stated, fails at `m = 2^128`: there `decompose` returns
`m2 = 1` with `neg2 = true`, and `signed(m1) + signed(m2)·λ` is
`2^128 − 2·λ`, which is not `2^128` modulo `r`. -/
theorem decompose_recombine_plus_counterexample :
    2 ^ 128 < frModulus ∧
    (decompose (2 ^ 128)).m2 = 1 ∧ (decompose (2 ^ 128)).neg2 = true ∧
    ¬ ((signed (decompose (2 ^ 128)).m1 (decompose (2 ^ 128)).neg1 +
        signed (decompose (2 ^ 128)).m2 (decompose (2 ^ 128)).neg2 * (glvLambda1 : Int)) %
      (frModulus : Int) = ((2 ^ 128 : Nat) : Int)) := by
  decide

/-- C3: for every scalar `m < r` both magnitudes that `decompose` returns,
after the conditional negation modulo `r` against `r128`, are at most
`2^128 − 1` (the value of `r128`). -/
theorem decompose_magnitudes (m : Nat) (hm : m < frModulus) :
    (decompose m).m1 ≤ 2 ^ 128 - 1 ∧ (decompose m).m2 ≤ 2 ^ 128 - 1 ∧
      r128 = 2 ^ 128 - 1 := by
  have h := decompose_eq_glvPair m hm
  rw [h.1]
  exact ⟨h.2.1, h.2.2, r128_eq⟩

theorem decompose_magnitudes_witness :
    2 ^ 254 < frModulus ∧
    (decompose (2 ^ 254)).m1 ≤ 2 ^ 128 - 1 ∧ (decompose (2 ^ 254)).m2 ≤ 2 ^ 128 - 1 ∧
      r128 = 2 ^ 128 - 1 :=
  ⟨by decide, decompose_magnitudes (2 ^ 254) (by decide)⟩

/-- C4: for every scalar `m < r` the fixed-width `decompose` and the
big-integer `decomposeBig` agree up to the sign convention: the magnitudes
are the absolute values of `a1` and `a2`, and each sign flag is set exactly
when the corresponding integer is negative. -/
theorem decompose_agrees_decomposeBig (m : Nat) (hm : m < frModulus) :
    ((decompose m).m1 : Int) = |(decomposeBig (m : Int)).1| ∧
    ((decompose m).m2 : Int) = |(decomposeBig (m : Int)).2| ∧
    ((decompose m).neg1 = true ↔ (decomposeBig (m : Int)).1 < 0) ∧
    ((decompose m).neg2 = true ↔ (decomposeBig (m : Int)).2 < 0) := by
  rw [decomposeBig_eq_glvPair m hm, (decompose_eq_glvPair m hm).1]
  refine ⟨?_, ?_, ?_, ?_⟩
  · exact Int.natCast_natAbs _
  · exact Int.natCast_natAbs _
  · exact decide_eq_true_iff
  · exact decide_eq_true_iff

theorem decompose_agrees_decomposeBig_witness :
    2 ^ 128 < frModulus ∧
    ((decompose (2 ^ 128)).m1 : Int) = |(decomposeBig ((2 ^ 128 : Nat) : Int)).1| ∧
    ((decompose (2 ^ 128)).m2 : Int) = |(decomposeBig ((2 ^ 128 : Nat) : Int)).2| ∧
    ((decompose (2 ^ 128)).neg1 = true ↔ (decomposeBig ((2 ^ 128 : Nat) : Int)).1 < 0) ∧
    ((decompose (2 ^ 128)).neg2 = true ↔ (decomposeBig ((2 ^ 128 : Nat) : Int)).2 < 0) :=
  ⟨by decide, decompose_agrees_decomposeBig (2 ^ 128) (by decide)⟩

/-! ## The inverse at the Montgomery form of 1 -/

/-- C1 (the code departs from it): at the element `one()`, the Montgomery form
of 1, which is a nonzero value below the modulus, Phase 1 of `inverse` reaches
`v = 0` after exactly `k = 384` iterations; the test `found && k > 384` then
fails and `inverse` writes zero, so `mul(a, inverse(a))` is zero and not
`one()`. -/
theorem inverse_one_eq_zero :
    one modulus ≠ 0 ∧ one modulus < modulus ∧
    (phase1 (384 * 2) (phase1Init modulus (one modulus))).found = true ∧
    (phase1 (384 * 2) (phase1Init modulus (one modulus))).k = 384 ∧
    inverse modulus (one modulus) = 0 ∧
    mul modulus (one modulus) (inverse modulus (one modulus)) = 0 ∧
    mul modulus (one modulus) (inverse modulus (one modulus)) ≠ one modulus := by
  have h1 : one modulus ≠ 0 ∧ one modulus < modulus := by decide
  have h2 : (phase1 (384 * 2) (phase1Init modulus (one modulus))).found = true := by rfl
  have h3 : (phase1 (384 * 2) (phase1Init modulus (one modulus))).k = 384 := by rfl
  have h4 : inverse modulus (one modulus) = 0 := by rfl
  have h5 : mul modulus (one modulus) (inverse modulus (one modulus)) = 0 := by
    rw [h4]; simp [mul]
  refine ⟨h1.1, h1.2, h2, h3, h4, h5, ?_⟩
  rw [h5]
  exact fun h => h1.1 h.symm

/-! ## Montgomery conversions -/

theorem toMont_fromMont (q a : Nat) (hodd : q % 2 = 1) (ha : a < q) :
    toMont q (fromMont q a) = a := by
  have hq : 0 < q := by omega
  apply eq_of_cast_eq q _ _ (mul_lt q _ _ hq) ha
  show ((mul q (mul q a 1) (r2 q) : Nat) : ZMod q) = a
  rw [cast_mul, cast_mul, cast_r2]
  have h := rInv_mul_montR q hodd
  have e : (a : ZMod q) * ((1 : Nat) : ZMod q) * (rInv q : ZMod q) *
      ((montR : ZMod q) * (montR : ZMod q)) * (rInv q : ZMod q)
      = (a : ZMod q) * ((rInv q : ZMod q) * (montR : ZMod q)) *
        ((rInv q : ZMod q) * (montR : ZMod q)) := by
    push_cast
    ring
  rw [e, h, mul_one, mul_one]

/-- C11: for every field element `a < q`, `fromMont(toMont(a)) = a` and
`toMont(fromMont(a)) = a`, where `toMont` multiplies by `r2 = R² mod q` and
`fromMont` by the raw element 1 under the Montgomery product. -/
theorem mont_roundtrip (q a : Nat) (hodd : q % 2 = 1) (ha : a < q) :
    fromMont q (toMont q a) = a ∧ toMont q (fromMont q a) = a ∧
    toMont q a = mul q a (montR * montR % q) ∧ fromMont q a = mul q a 1 :=
  ⟨fromMont_mul_r2 q a hodd ha, toMont_fromMont q a hodd ha, rfl, rfl⟩

theorem mont_roundtrip_witness :
    modulus % 2 = 1 ∧ 5 < modulus ∧
    fromMont modulus (toMont modulus 5) = 5 ∧ toMont modulus (fromMont modulus 5) = 5 ∧
    toMont modulus 5 = mul modulus 5 (montR * montR % modulus) ∧
    fromMont modulus 5 = mul modulus 5 1 :=
  ⟨by decide, by decide, mont_roundtrip modulus 5 (by decide) (by decide)⟩

/-! ## The inverse of zero -/

/-- C12: `inverse(zero())` is the zero element: on input `e = 0` Phase 1 stops
at once with `found = true` and `k = 0`, the test `found && k > 384` fails and
zero is written. -/
theorem inverse_zero (q : Nat) :
    (phase1 (384 * 2) (phase1Init q zero)).found = true ∧
    (phase1 (384 * 2) (phase1Init q zero)).k = 0 ∧
    ((phase1 (384 * 2) (phase1Init q zero)).found &&
      decide ((phase1 (384 * 2) (phase1Init q zero)).k > 384)) = false ∧
    inverse q zero = zero := by
  refine ⟨rfl, rfl, rfl, rfl⟩

/-! ## The decomposition of zero -/

/-- C13: `decompose(0)` returns `m1 = 0`, `m2 = 0`, `neg1 = false` and
`neg2 = false`. -/
theorem decompose_zero :
    decompose 0 = { m1 := 0, m2 := 0, neg1 := false, neg2 := false } := by
  rfl

/-! ## Small integers and negation -/

theorem fromMont_zero (q : Nat) : fromMont q 0 = 0 := by
  simp [fromMont, mul]

theorem beBytes_zero (n : Nat) : beBytes n 0 = List.replicate n 0 := by
  induction n with
  | zero => rfl
  | succ n ih =>
    rw [beBytes, Nat.zero_div, ih, List.replicate_succ']
    rfl

theorem fromUInt64_ok (q n x : Nat) (h : fromUInt64 q n = Except.ok x) :
    (n = 0 ∧ x = 0) ∨ (n < q ∧ x = mul q n (r2 q)) := by
  unfold fromUInt64 at h
  by_cases h0 : n = 0
  · left
    simp only [h0, if_true] at h
    injection h with h
    exact ⟨h0, h.symm⟩
  · right
    simp only [h0, if_false] at h
    by_cases hv : valid q n = true
    · simp only [hv, Bool.not_true, Bool.false_eq_true, if_false] at h
      injection h with h
      exact ⟨(valid_iff q n).1 hv, h.symm⟩
    · simp only [Bool.not_eq_true] at hv
      simp [hv] at h

/-- C14: for every `uint64` value `n` for which `fromUInt64(n)` returns an
element `x`, `toBig(x)` is the integer `n`; `fromUInt64(0)` is the zero
element, whose `toBytes` is 48 zero bytes, and `fromUInt64(1)` followed by
`toBig` gives 1. -/
theorem toBig_fromUInt64 (q : Nat) (hodd : q % 2 = 1) :
    (∀ n x : Nat, n < 2 ^ 64 → fromUInt64 q n = Except.ok x → toBig q x = n) ∧
    fromUInt64 q 0 = Except.ok zero ∧
    toBytes q zero = List.replicate 48 0 ∧
    (1 < q → ∃ x, fromUInt64 q 1 = Except.ok x ∧ toBig q x = 1) := by
  refine ⟨?_, rfl, ?_, ?_⟩
  · intro n x _ h
    rcases fromUInt64_ok q n x h with ⟨hn, hx⟩ | ⟨hn, hx⟩
    · rw [hn, hx]; exact fromMont_zero q
    · rw [hx]; exact fromMont_mul_r2 q n hodd hn
  · show feBytes (fromMont q zero) = _
    unfold zero
    rw [fromMont_zero]
    exact beBytes_zero 48
  · intro h1
    refine ⟨mul q 1 (r2 q), ?_, fromMont_mul_r2 q 1 hodd h1⟩
    unfold fromUInt64
    have hv : valid q 1 = true := (valid_iff q 1).2 h1
    simp [hv]

theorem toBig_fromUInt64_witness :
    modulus % 2 = 1 ∧ 7 < 2 ^ 64 ∧
    fromUInt64 modulus 7 = Except.ok (mul modulus 7 (r2 modulus)) ∧
    toBig modulus (mul modulus 7 (r2 modulus)) = 7 ∧
    fromUInt64 modulus 0 = Except.ok zero ∧
    toBytes modulus zero = List.replicate 48 0 ∧
    1 < modulus ∧ (∃ x, fromUInt64 modulus 1 = Except.ok x ∧ toBig modulus x = 1) :=
  have h := toBig_fromUInt64 modulus (by decide)
  ⟨by decide, by decide, rfl, h.1 7 _ (by decide) rfl, h.2.1, h.2.2.1, by decide,
    h.2.2.2 (by decide)⟩

/-- C15: for every field element `a < q`, `neg` gives 0 when `a = 0` and
`q − a` when `a ≠ 0`, so that the result is always below `q` (never `q`
itself, which the limb kernel alone would leave for `a = 0`). -/
theorem neg_spec (q a : Nat) (hq : q < 2 ^ 384) (ha : a < q) :
    (a = 0 → fp.neg q a = 0) ∧ (a ≠ 0 → fp.neg q a = q - a) ∧ fp.neg q a < q ∧
    Bls.neg q 0 = q := by
  have hk : a ≠ 0 → Bls.neg q a = q - a := by
    intro h
    unfold Bls.neg
    rw [Nat.mod_eq_of_lt (by omega : a < 2 ^ 384)]
    omega
  have h0 : Bls.neg q 0 = q := by
    unfold Bls.neg
    omega
  by_cases h : a = 0
  · subst h
    have e : fp.neg q 0 = 0 := rfl
    rw [e]
    exact ⟨fun _ => rfl, fun h => absurd rfl h, ha, h0⟩
  · have hb : (a == 0) = false := by simpa using h
    have e : fp.neg q a = q - a := by
      unfold fp.neg feIsZero
      rw [hb, ← hk h]
      rfl
    rw [e]
    exact ⟨fun h1 => absurd h1 h, fun _ => rfl, by omega, h0⟩

theorem neg_spec_witness :
    modulus < 2 ^ 384 ∧ 5 < modulus ∧
    ((5 = 0 → fp.neg modulus 5 = 0) ∧ (5 ≠ 0 → fp.neg modulus 5 = modulus - 5) ∧
      fp.neg modulus 5 < modulus ∧ Bls.neg modulus 0 = modulus) :=
  ⟨by decide, by decide, neg_spec modulus 5 (by decide) (by decide)⟩

/-- C20: `fromUInt64` never returns an error: every `uint64` value `n` is
below the modulus, so the `valid` check passes and an element is returned. -/
theorem fromUInt64_no_error (n : Nat) (hn : n < 2 ^ 64) :
    n < modulus ∧ valid modulus n = true ∧ ∃ x, fromUInt64 modulus n = Except.ok x := by
  have hlt : n < modulus := by
    unfold modulus
    omega
  have hv : valid modulus n = true := (valid_iff modulus n).2 hlt
  refine ⟨hlt, hv, ?_⟩
  unfold fromUInt64
  by_cases h0 : n = 0
  · exact ⟨n, by simp [h0]⟩
  · exact ⟨mul modulus n (r2 modulus), by simp [h0, hv]⟩

theorem fromUInt64_no_error_witness :
    2 ^ 64 - 1 < 2 ^ 64 ∧ (2 ^ 64 - 1 < modulus ∧ valid modulus (2 ^ 64 - 1) = true ∧
      ∃ x, fromUInt64 modulus (2 ^ 64 - 1) = Except.ok x) :=
  ⟨by decide, fromUInt64_no_error (2 ^ 64 - 1) (by decide)⟩

/-! ## The rounding of `mr` and the recombination -/

theorem roundDiv_lt (m r : Nat) (hm : m < r) :
    roundDiv m r = if 2 * m < r then 0 else 1 := by
  unfold roundDiv
  split
  · exact Nat.div_eq_of_lt (by omega)
  · have h1 : (2 * m + r) / (2 * r) < 2 := by
      rw [Nat.div_lt_iff_lt_mul (by omega)]
      omega
    have h2 : 1 ≤ (2 * m + r) / (2 * r) := by
      rw [Nat.le_div_iff_mul_le (by omega)]
      omega
    omega

/-- For every scalar `m < r`, `mr(m)` is `(m·glvQ2 + 2^255) >> 256` with
`glvQ2 = 2`, the integer nearest to `m·glvQ2 / 2^256`: it is 0 for `m < 2^254`
and 1 otherwise, and it is the integer nearest to `m / r` exactly when
`2·m < r` or `2^254 ≤ m`. -/
theorem mr_eq_roundDiv_iff (m : Nat) (hm : m < frModulus) :
    glvQ2 = 2 ∧
    mr m = (m * glvQ2 + 2 ^ 255) / 2 ^ 256 ∧
    mr m = roundDiv (m * glvQ2) (2 ^ 256) ∧
    mr m = (if m < 2 ^ 254 then 0 else 1) ∧
    (mr m = roundDiv m frModulus ↔ (2 * m < frModulus ∨ 2 ^ 254 ≤ m)) := by
  have h := mr_spec m hm
  have hr := roundDiv_lt m frModulus hm
  rw [glvQ2_eq]
  refine ⟨rfl, ?_, ?_, h, ?_⟩
  · rw [h]
    unfold frModulus at hm
    split <;> omega
  · rw [h]
    unfold roundDiv
    unfold frModulus at hm
    split <;> omega
  · rw [h, hr]
    unfold frModulus at hm ⊢
    split <;> split <;> omega

/-- C16 (the code departs from it): at the scalar `m = (r + 1) / 2`, which is
below `r`, the integer nearest to `m / r` is 1, while `mr` computes
`(m·glvQ2 + 2^255) >> 256 = 0` with `glvQ2 = 2` (as it does for every
`m < 2^254`); so `alpha2 = mr(m)` is not `round(m / r)`, which is what the
comment on it in `decompose` says. -/
theorem mr_ne_round :
    (frModulus + 1) / 2 =
      26217937587563095239723870254092982918845276250263818911301829349969290592257 ∧
    (frModulus + 1) / 2 < frModulus ∧
    glvQ2 = 2 ∧
    mr ((frModulus + 1) / 2) = ((frModulus + 1) / 2 * glvQ2 + 2 ^ 255) / 2 ^ 256 ∧
    mr ((frModulus + 1) / 2) = 0 ∧
    roundDiv ((frModulus + 1) / 2) frModulus = 1 ∧
    mr ((frModulus + 1) / 2) ≠ roundDiv ((frModulus + 1) / 2) frModulus := by
  decide

/-- The integer pair satisfies `a1 − a2·λ = m − alpha2·r` over the integers. -/
theorem glvPair_lambda (m : Nat) :
    (glvPair m).1 - (glvPair m).2 * (glvLambda1 : Int) =
      (m : Int) - (mr m : Int) * (frModulus : Int) := by
  unfold glvPair
  simp only
  rw [glvB1_eq, glvB2_eq, glvLambda1_eq]
  unfold frModulus
  push_cast
  ring

/-- C18: for every scalar `m < r`, with `s1` and `s2` the signed values of the
two components that `decompose` returns, `(s1 − s2·glvLambda1) mod r = m`;
the second component enters with a minus sign because it is
`a2 = z2 − alpha1 = alpha2·glvB2 − alpha1`, which makes `s1 − s2·glvLambda1`
the integer `m − alpha2·r`. -/
theorem decompose_lambda_minus (m : Nat) (hm : m < frModulus) :
    signed (decompose m).m2 (decompose m).neg2 =
      (mr m : Int) * (glvB2 : Int) - (x2mr m : Int) ∧
    signed (decompose m).m1 (decompose m).neg1 -
        signed (decompose m).m2 (decompose m).neg2 * (glvLambda1 : Int) =
      (m : Int) - (mr m : Int) * (frModulus : Int) ∧
    (signed (decompose m).m1 (decompose m).neg1 -
        signed (decompose m).m2 (decompose m).neg2 * (glvLambda1 : Int)) %
      (frModulus : Int) = (m : Int) := by
  rw [(signed_decompose m hm).1, (signed_decompose m hm).2]
  exact ⟨rfl, glvPair_lambda m, glvPair_recombine m hm⟩

theorem decompose_lambda_minus_witness :
    2 ^ 254 + 12345 < frModulus ∧
    (signed (decompose (2 ^ 254 + 12345)).m2 (decompose (2 ^ 254 + 12345)).neg2 =
      (mr (2 ^ 254 + 12345) : Int) * (glvB2 : Int) - (x2mr (2 ^ 254 + 12345) : Int) ∧
    signed (decompose (2 ^ 254 + 12345)).m1 (decompose (2 ^ 254 + 12345)).neg1 -
        signed (decompose (2 ^ 254 + 12345)).m2 (decompose (2 ^ 254 + 12345)).neg2 *
          (glvLambda1 : Int) =
      ((2 ^ 254 + 12345 : Nat) : Int) - (mr (2 ^ 254 + 12345) : Int) * (frModulus : Int) ∧
    (signed (decompose (2 ^ 254 + 12345)).m1 (decompose (2 ^ 254 + 12345)).neg1 -
        signed (decompose (2 ^ 254 + 12345)).m2 (decompose (2 ^ 254 + 12345)).neg2 *
          (glvLambda1 : Int)) %
      (frModulus : Int) = ((2 ^ 254 + 12345 : Nat) : Int)) :=
  ⟨by decide, decompose_lambda_minus (2 ^ 254 + 12345) (by decide)⟩

/-! ## Phase 1 of the inverse: the four branches of one iteration -/

theorem feIsEven_iff (a : Nat) : feIsEven a = true ↔ a % 2 = 0 := by
  unfold feIsEven
  exact beq_iff_eq

theorem feIsZero_iff (a : Nat) : feIsZero a = true ↔ a = 0 := by
  unfold feIsZero
  exact beq_iff_eq

theorem feCmp_eq_one (a b : Nat) : feCmp a b = 1 ↔ b < a := by
  unfold feCmp
  split
  · constructor
    · intro h; omega
    · intro h; omega
  · split
    · constructor
      · intro h; omega
      · intro h; omega
    · constructor
      · intro _; omega
      · intro _; rfl

theorem feDiv2_zero (a : Nat) : feDiv2 a 0 = a / 2 := by
  simp [feDiv2]

theorem lsubAssignNc6_eq (a b : Nat) (hab : b ≤ a) (ha : a < 2 ^ 384) :
    lsubAssignNc6 a b = a - b := by
  unfold lsubAssignNc6
  rw [Nat.mod_eq_of_lt (by omega : b < 2 ^ 384)]
  omega

theorem phase1Step_uEven (st : InvState) (hu : st.u % 2 = 0) :
    phase1Step st = { st with u := st.u / 2, s := 2 * st.s % 2 ^ 384, k := st.k + 1 } := by
  unfold phase1Step
  rw [if_pos ((feIsEven_iff _).2 hu), feDiv2_zero]
  rfl

theorem phase1Step_vEven (st : InvState) (hu : st.u % 2 = 1) (hv : st.v % 2 = 0) :
    phase1Step st = { st with v := st.v / 2, r := 2 * st.r % 2 ^ 384,
                              z := (st.z + st.r / 2 ^ 383 % 2) % 2 ^ 64, k := st.k + 1 } := by
  unfold phase1Step
  have h1 : ¬ feIsEven st.u = true := by rw [feIsEven_iff]; omega
  rw [if_neg h1, if_pos ((feIsEven_iff _).2 hv), feDiv2_zero]
  rfl

theorem phase1Step_gt (st : InvState) (hu : st.u % 2 = 1) (hv : st.v % 2 = 1)
    (h : st.v < st.u) (hb : st.u < 2 ^ 384) :
    phase1Step st = { st with u := (st.u - st.v) / 2, r := (st.r + st.s) % 2 ^ 384,
                              s := 2 * st.s % 2 ^ 384, k := st.k + 1 } := by
  unfold phase1Step
  have h1 : ¬ feIsEven st.u = true := by rw [feIsEven_iff]; omega
  have h2 : ¬ feIsEven st.v = true := by rw [feIsEven_iff]; omega
  rw [if_neg h1, if_neg h2, if_pos ((feCmp_eq_one _ _).2 h)]
  simp only
  rw [feDiv2_zero, lsubAssignNc6_eq _ _ (Nat.le_of_lt h) hb]
  rfl

theorem phase1Step_le (st : InvState) (hu : st.u % 2 = 1) (hv : st.v % 2 = 1)
    (h : st.u ≤ st.v) (hb : st.v < 2 ^ 384) :
    phase1Step st = { st with v := (st.v - st.u) / 2, s := (st.s + st.r) % 2 ^ 384,
                              r := 2 * st.r % 2 ^ 384,
                              z := (st.z + st.r / 2 ^ 383 % 2) % 2 ^ 64, k := st.k + 1 } := by
  unfold phase1Step
  have h1 : ¬ feIsEven st.u = true := by rw [feIsEven_iff]; omega
  have h2 : ¬ feIsEven st.v = true := by rw [feIsEven_iff]; omega
  have h3 : ¬ feCmp st.u st.v = 1 := by rw [feCmp_eq_one]; omega
  rw [if_neg h1, if_neg h2, if_neg h3]
  simp only
  rw [feDiv2_zero, lsubAssignNc6_eq _ _ h hb]
  rfl

theorem phase1_succ_zero (n : Nat) (st : InvState) (h : st.v = 0) :
    phase1 (n + 1) st = { st with found := true } := by
  rw [phase1, if_pos ((feIsZero_iff _).2 h)]

theorem phase1_succ_step (n : Nat) (st : InvState) (h : st.v ≠ 0) :
    phase1 (n + 1) st = phase1 n (phase1Step st) := by
  have h1 : ¬ feIsZero st.v = true := by rw [feIsZero_iff]; exact h
  rw [phase1, if_neg h1]

/-! ## Phase 1 of the inverse: termination -/

/-- Every iteration of Phase 1 halves `u` or `v`: when `1 ≤ u < 2^a` and
`v < 2^b` the loop reaches `v = 0` and stops within `a + b` iterations. -/
theorem phase1_terminates (fuel : Nat) : ∀ (st : InvState) (a b : Nat),
    1 ≤ st.u → st.u < 2 ^ a → st.v < 2 ^ b → a ≤ 384 → b ≤ 384 → a + b ≤ fuel →
    (phase1 fuel st).found = true ∧ (phase1 fuel st).v = 0 ∧
      (phase1 fuel st).k + 1 ≤ st.k + a + b := by
  induction fuel with
  | zero =>
    intro st a b h1 hu _ _ _ hab
    have ha : a = 0 := by omega
    rw [ha] at hu
    omega
  | succ n ih =>
    intro st a b h1 hu hv ha hb hab
    have ha0 : a ≠ 0 := by
      intro h
      rw [h] at hu
      omega
    obtain ⟨a1, rfl⟩ := Nat.exists_eq_succ_of_ne_zero ha0
    have hu384 : st.u < 2 ^ 384 :=
      lt_of_lt_of_le hu (Nat.pow_le_pow_right (by decide) ha)
    have hv384 : st.v < 2 ^ 384 :=
      lt_of_lt_of_le hv (Nat.pow_le_pow_right (by decide) hb)
    by_cases hv0 : st.v = 0
    · rw [phase1_succ_zero n st hv0]
      refine ⟨rfl, hv0, ?_⟩
      show st.k + 1 ≤ st.k + (a1 + 1) + b
      omega
    · have hb0 : b ≠ 0 := by
        intro h
        rw [h] at hv
        omega
      obtain ⟨b1, rfl⟩ := Nat.exists_eq_succ_of_ne_zero hb0
      rw [phase1_succ_step n st hv0]
      rw [Nat.pow_succ] at hu hv
      by_cases hue : st.u % 2 = 0
      · rw [phase1Step_uEven st hue]
        have := ih { st with u := st.u / 2, s := 2 * st.s % 2 ^ 384, k := st.k + 1 }
          a1 (b1 + 1) (by show 1 ≤ st.u / 2; omega) (by show st.u / 2 < 2 ^ a1; omega)
          (by show st.v < 2 ^ (b1 + 1); rw [Nat.pow_succ]; exact hv)
          (by omega) hb (by omega)
        refine ⟨this.1, this.2.1, ?_⟩
        have h3 := this.2.2
        simp only at h3
        omega
      · by_cases hve : st.v % 2 = 0
        · rw [phase1Step_vEven st (by omega) hve]
          have := ih { st with v := st.v / 2, r := 2 * st.r % 2 ^ 384,
                                      z := (st.z + st.r / 2 ^ 383 % 2) % 2 ^ 64, k := st.k + 1 }
            (a1 + 1) b1 h1 (by show st.u < 2 ^ (a1 + 1); rw [Nat.pow_succ]; exact hu)
            (by show st.v / 2 < 2 ^ b1; omega) ha (by omega) (by omega)
          refine ⟨this.1, this.2.1, ?_⟩
          have h3 := this.2.2
          simp only at h3
          omega
        · by_cases hlt : st.v < st.u
          · rw [phase1Step_gt st (by omega) (by omega) hlt hu384]
            have := ih { st with u := (st.u - st.v) / 2, r := (st.r + st.s) % 2 ^ 384,
                                      s := 2 * st.s % 2 ^ 384, k := st.k + 1 }
              a1 (b1 + 1) (by show 1 ≤ (st.u - st.v) / 2; omega)
              (by show (st.u - st.v) / 2 < 2 ^ a1; omega)
              (by show st.v < 2 ^ (b1 + 1); rw [Nat.pow_succ]; exact hv)
              (by omega) hb (by omega)
            refine ⟨this.1, this.2.1, ?_⟩
            have h3 := this.2.2
            simp only at h3
            omega
          · rw [phase1Step_le st (by omega) (by omega) (by omega) hv384]
            have := ih { st with v := (st.v - st.u) / 2, s := (st.s + st.r) % 2 ^ 384,
                                      r := 2 * st.r % 2 ^ 384,
                                      z := (st.z + st.r / 2 ^ 383 % 2) % 2 ^ 64, k := st.k + 1 }
              (a1 + 1) b1 h1 (by show st.u < 2 ^ (a1 + 1); rw [Nat.pow_succ]; exact hu)
              (by show (st.v - st.u) / 2 < 2 ^ b1; omega) ha (by omega) (by omega)
            refine ⟨this.1, this.2.1, ?_⟩
            have h3 := this.2.2
            simp only at h3
            omega

/-! ## Phase 1 of the inverse: Kaliski's invariant -/

theorem phase1Init_inv (q e : Nat) (he : e < q) (hc : Nat.Coprime q e) :
    Phase1Inv q e (phase1Init q e) := by
  unfold Phase1Inv phase1Init
  simp only
  refine ⟨by omega, le_refl _, by omega, by ring, by omega, trivial, trivial, hc, ?_, ?_⟩
  · simp
  · simp

theorem phase1Step_inv (q e : Nat) (hq : q < 2 ^ 383) (st : InvState)
    (hinv : Phase1Inv q e st) (hv0 : st.v ≠ 0) : Phase1Inv q e (phase1Step st) := by
  obtain ⟨hu1, hs1, hvq, heq, hr2, hz, hf, hcop, hc1, hc2⟩ := hinv
  have hsq : st.s ≤ q := by
    have := Nat.le_mul_of_pos_left st.s (by omega : 0 < st.u)
    omega
  have hrq : st.r ≤ q := by
    have := Nat.le_mul_of_pos_left st.r (by omega : 0 < st.v)
    omega
  have huq : st.u ≤ q := by
    have := Nat.le_mul_of_pos_right st.u (by omega : 0 < st.s)
    omega
  have hs2 : 2 * st.s % 2 ^ 384 = 2 * st.s := Nat.mod_eq_of_lt (by omega)
  have hr2m : 2 * st.r % 2 ^ 384 = 2 * st.r := Nat.mod_eq_of_lt (by omega)
  have hrs : (st.r + st.s) % 2 ^ 384 = st.r + st.s := Nat.mod_eq_of_lt (by omega)
  have hsr : (st.s + st.r) % 2 ^ 384 = st.s + st.r := Nat.mod_eq_of_lt (by omega)
  have hzz : (st.z + st.r / 2 ^ 383 % 2) % 2 ^ 64 = 0 := by
    rw [hz, Nat.div_eq_of_lt (by omega : st.r < 2 ^ 383)]
    rfl
  by_cases hue : st.u % 2 = 0
  · rw [phase1Step_uEven st hue, hs2]
    obtain ⟨c, hc⟩ : ∃ c, st.u = 2 * c := ⟨st.u / 2, by omega⟩
    have hdiv : st.u / 2 = c := by omega
    rw [hdiv]
    rw [hc] at heq hcop hc1
    unfold Phase1Inv
    simp only
    refine ⟨by omega, by omega, hvq, ?_, hr2, hz, hf, Nat.Coprime.coprime_mul_left hcop, ?_, ?_⟩
    · rw [← heq]; ring
    · push_cast at hc1 ⊢
      rw [pow_succ]
      linear_combination hc1
    · push_cast
      rw [pow_succ]
      linear_combination 2 * hc2
  · by_cases hve : st.v % 2 = 0
    · rw [phase1Step_vEven st (by omega) hve, hr2m, hzz]
      obtain ⟨c, hc⟩ : ∃ c, st.v = 2 * c := ⟨st.v / 2, by omega⟩
      have hdiv : st.v / 2 = c := by omega
      rw [hdiv]
      rw [hc] at heq hcop hc2
      unfold Phase1Inv
      simp only
      refine ⟨hu1, hs1, by omega, ?_, by omega, trivial, hf,
        Nat.Coprime.coprime_mul_left_right hcop, ?_, ?_⟩
      · rw [← heq]; ring
      · push_cast
        rw [pow_succ]
        linear_combination 2 * hc1
      · push_cast at hc2 ⊢
        rw [pow_succ]
        linear_combination hc2
    · by_cases hlt : st.v < st.u
      · rw [phase1Step_gt st (by omega) (by omega) hlt (by omega), hrs, hs2]
        obtain ⟨c, hc⟩ : ∃ c, st.u = 2 * c + st.v := ⟨(st.u - st.v) / 2, by omega⟩
        have hdiv : (st.u - st.v) / 2 = c := by omega
        rw [hdiv]
        rw [hc] at heq hcop hc1
        unfold Phase1Inv
        simp only
        refine ⟨by omega, by omega, hvq, ?_, by omega, hz, hf,
          Nat.Coprime.coprime_mul_left (Nat.coprime_add_self_left.1 hcop), ?_, ?_⟩
        · rw [← heq]; ring
        · push_cast at hc1 ⊢
          rw [pow_succ]
          linear_combination hc1 + hc2
        · push_cast
          rw [pow_succ]
          linear_combination 2 * hc2
      · rw [phase1Step_le st (by omega) (by omega) (by omega) (by omega), hsr, hr2m, hzz]
        obtain ⟨c, hc⟩ : ∃ c, st.v = 2 * c + st.u := ⟨(st.v - st.u) / 2, by omega⟩
        have hdiv : (st.v - st.u) / 2 = c := by omega
        rw [hdiv]
        rw [hc] at heq hcop hc2
        unfold Phase1Inv
        simp only
        refine ⟨hu1, by omega, by omega, ?_, by omega, trivial, hf,
          Nat.Coprime.coprime_mul_left_right (Nat.coprime_add_self_right.1 hcop), ?_, ?_⟩
        · rw [← heq]; ring
        · push_cast
          rw [pow_succ]
          linear_combination 2 * hc1
        · push_cast at hc2 ⊢
          rw [pow_succ]
          linear_combination hc1 + hc2

/-! ## Phase 1 of the inverse: the state at the exit -/

/-- When Phase 1 stops from a state that satisfies the invariant, it stops
with `u = 1`, no carry recorded, `r ≤ 2·q` and `e·r ≡ −2^k (mod q)`. -/
theorem phase1_inv (q e : Nat) (hq : q < 2 ^ 383) (fuel : Nat) : ∀ st : InvState,
    Phase1Inv q e st → (phase1 fuel st).found = true →
    (phase1 fuel st).u = 1 ∧ (phase1 fuel st).z = 0 ∧ (phase1 fuel st).r ≤ 2 * q ∧
      (e : ZMod q) * ((phase1 fuel st).r : ZMod q) = -(2 ^ (phase1 fuel st).k) := by
  induction fuel with
  | zero =>
    intro st hinv hf
    have h := hinv.2.2.2.2.2.2.1
    rw [phase1] at hf
    rw [h] at hf
    exact absurd hf (by decide)
  | succ n ih =>
    intro st hinv hf
    by_cases hv0 : st.v = 0
    · rw [phase1_succ_zero n st hv0]
      obtain ⟨_, _, _, _, hr2, hz, _, hcop, hc1, _⟩ := hinv
      rw [hv0] at hcop
      have hu : st.u = 1 := (Nat.coprime_zero_right _).1 hcop
      rw [hu] at hc1
      refine ⟨hu, hz, hr2, ?_⟩
      show (e : ZMod q) * (st.r : ZMod q) = -(2 ^ st.k)
      rw [hc1, Nat.cast_one, one_mul]
    · rw [phase1_succ_step n st hv0] at hf ⊢
      exact ih _ (phase1Step_inv q e hq st hinv hv0) hf

/-! ## Phase 2 of the inverse -/

theorem iterate_double6_lt (q : Nat) (hq : 0 < q) (n a : Nat) (ha : a < q) :
    (double6 q)^[n] a < q := by
  cases n with
  | zero => exact ha
  | succ n =>
    rw [Function.iterate_succ_apply']
    exact Nat.mod_lt _ hq

theorem cast_iterate_double6 (q n a : Nat) :
    (((double6 q)^[n] a : Nat) : ZMod q) = 2 ^ n * (a : ZMod q) := by
  induction n with
  | zero => simp
  | succ n ih =>
    rw [Function.iterate_succ_apply']
    have h : ((double6 q ((double6 q)^[n] a) : Nat) : ZMod q) =
        2 * (((double6 q)^[n] a : Nat) : ZMod q) := by
      generalize (double6 q)^[n] a = b
      unfold double6
      rw [ZMod.natCast_mod, Nat.cast_mul, Nat.cast_ofNat]
    rw [h, ih, pow_succ]
    ring

theorem feCmp_ne_neg_one (a b : Nat) : (feCmp a b != -1) = decide (b ≤ a) := by
  by_cases h : a < b
  · have h1 : feCmp a b = -1 := (feCmp_eq_neg_one a b).2 h
    rw [h1]
    have : ¬ b ≤ a := by omega
    simp [this]
  · have h1 : ¬ feCmp a b = -1 := fun hc => h ((feCmp_eq_neg_one a b).1 hc)
    have : b ≤ a := by omega
    simp [this, h1]

/-- The value that `inverse` writes when Phase 1 has stopped with `found`,
`k > 384`, no carry and `r < 2·q`: Phase 2 doubles `q − (r mod q)`. -/
theorem inverse_of_final (q e : Nat) (hq : q < 2 ^ 383)
    (hfound : (phase1 (384 * 2) (phase1Init q e)).found = true)
    (hk : 384 < (phase1 (384 * 2) (phase1Init q e)).k)
    (hz : (phase1 (384 * 2) (phase1Init q e)).z = 0)
    (hr : (phase1 (384 * 2) (phase1Init q e)).r < 2 * q) :
    inverse q e = (double6 q)^[384 * 2 - (phase1 (384 * 2) (phase1Init q e)).k]
      (q - (phase1 (384 * 2) (phase1Init q e)).r % q) := by
  unfold inverse
  generalize phase1 (384 * 2) (phase1Init q e) = f at hfound hk hz hr ⊢
  have hg : (f.found && decide (f.k > 384)) = true := by
    rw [hfound]
    simpa using hk
  simp only [hg, if_true]
  rw [feCmp_ne_neg_one, hz]
  by_cases hge : q ≤ f.r
  · have h1 : (decide (q ≤ f.r) || decide (0 > 0)) = true := by simp [hge]
    rw [if_pos h1, lsubAssignNc6_eq _ _ hge (by omega)]
    have h2 : f.r % q = f.r - q := by
      rw [Nat.mod_eq_sub_mod hge, Nat.mod_eq_of_lt (by omega)]
    rw [h2, lsubAssignNc6_eq _ _ (by omega) (by omega)]
  · have h1 : ¬ (decide (q ≤ f.r) || decide (0 > 0)) = true := by simp [hge]
    rw [if_neg h1]
    have h2 : f.r % q = f.r := Nat.mod_eq_of_lt (by omega)
    rw [h2, lsubAssignNc6_eq _ _ (by omega) (by omega)]

/-! ## The inverse -/

theorem two_pow_unit (q : Nat) (hodd : q % 2 = 1) :
    (2 : ZMod q) ^ 768 * ((rInv q : ZMod q) * (rInv q : ZMod q)) = 1 := by
  have h := rInv_mul_montR q hodd
  have hm : ((montR : Nat) : ZMod q) = (2 : ZMod q) ^ 384 := by
    unfold montR
    rw [Nat.cast_pow, Nat.cast_ofNat]
  rw [hm] at h
  have e : (2 : ZMod q) ^ 768 * ((rInv q : ZMod q) * (rInv q : ZMod q)) =
      ((rInv q : ZMod q) * 2 ^ 384) * ((rInv q : ZMod q) * 2 ^ 384) := by
    ring
  rw [e, h, mul_one]

theorem two_pow_ne_zero (q : Nat) (hodd : q % 2 = 1) (hq1 : 1 < q) (k : Nat) (hk : k ≤ 768) :
    (2 : ZMod q) ^ k ≠ 0 := by
  intro h0
  haveI : Fact (1 < q) := ⟨hq1⟩
  have h := two_pow_unit q hodd
  have e : (2 : ZMod q) ^ 768 = 2 ^ k * 2 ^ (768 - k) := by
    rw [← pow_add]
    congr 1
    omega
  rw [e, h0, zero_mul, zero_mul] at h
  exact zero_ne_one h

/-- On an input `e` coprime to the odd modulus `q < 2^381` whose Phase 1 ends
with `k > 384`, `inverse` writes a value below `q` whose product with `e` is
`2^768` modulo `q`. -/
theorem cast_inverse (q e : Nat) (hodd : q % 2 = 1) (hq : q < 2 ^ 381) (he : e < q)
    (hc : Nat.Coprime q e) (hk : 384 < (phase1 (384 * 2) (phase1Init q e)).k) :
    (e : ZMod q) * ((inverse q e : Nat) : ZMod q) = 2 ^ 768 ∧ inverse q e < q := by
  have hq1 : 1 < q := by
    rcases Nat.lt_or_ge 1 q with h | h
    · exact h
    · exfalso
      have hq' : q = 1 := by omega
      subst hq'
      have he' : e = 0 := by omega
      subst he'
      exact absurd hk (by decide)
  have hterm := phase1_terminates (384 * 2) (phase1Init q e) 381 381
    (by show 1 ≤ q; omega) (by show q < 2 ^ 381; exact hq)
    (by show e < 2 ^ 381; omega) (by omega) (by omega) (by omega)
  have hfin := phase1_inv q e (by omega) (384 * 2) _ (phase1Init_inv q e he hc) hterm.1
  have hinv := inverse_of_final q e (by omega) hterm.1 hk hfin.2.1
  have hk2 := hterm.2.2
  have hk0 : (phase1Init q e).k = 0 := rfl
  rw [hk0] at hk2
  obtain ⟨_, _, hr2, hcong⟩ := hfin
  generalize phase1 (384 * 2) (phase1Init q e) = f at hk hk2 hr2 hcong hinv
  have hrne : (f.r : ZMod q) ≠ 0 := by
    intro h0
    rw [h0, mul_zero] at hcong
    have := two_pow_ne_zero q hodd hq1 f.k (by omega)
    exact this (neg_eq_zero.1 hcong.symm)
  have hmod : f.r % q ≠ 0 := by
    intro h0
    apply hrne
    rw [← ZMod.natCast_mod, h0, Nat.cast_zero]
  have hr2q : f.r < 2 * q := by
    rcases Nat.lt_or_ge f.r (2 * q) with h | h
    · exact h
    · exfalso
      apply hmod
      have : f.r = 2 * q := by omega
      rw [this]
      exact Nat.mul_mod_left _ _
  have hinv2 := hinv hr2q
  have hlt : f.r % q < q := Nat.mod_lt _ (by omega)
  have hu0 : q - f.r % q < q := by omega
  rw [hinv2]
  refine ⟨?_, iterate_double6_lt q (by omega) _ _ hu0⟩
  rw [cast_iterate_double6, Nat.cast_sub (Nat.le_of_lt hlt), ZMod.natCast_self,
    ZMod.natCast_mod, zero_sub]
  have e1 : (e : ZMod q) * (2 ^ (384 * 2 - f.k) * -(f.r : ZMod q)) =
      2 ^ (384 * 2 - f.k) * -((e : ZMod q) * (f.r : ZMod q)) := by ring
  rw [e1, hcong, neg_neg, ← pow_add]
  congr 1
  omega

/-- C19: for every input `e < q` (with the modulus below `2^381`), the
Phase 1 loop of `inverse` reaches `v = 0` and sets `found`; the iteration that
stops the loop is at most the 762nd, so `k ≤ 761`, inside the bound
`2·384 = 768`; the test `found && k > 384` therefore fails only through
`k ≤ 384`, never because the loop ran out of iterations. -/
theorem phase1_found (q e : Nat) (hq : q < 2 ^ 381) (he : e < q) :
    (phase1 (384 * 2) (phase1Init q e)).found = true ∧
    (phase1 (384 * 2) (phase1Init q e)).v = 0 ∧
    (phase1 (384 * 2) (phase1Init q e)).k + 1 ≤ 762 ∧
    (phase1 (384 * 2) (phase1Init q e)).k < 384 * 2 ∧
    (((phase1 (384 * 2) (phase1Init q e)).found &&
        decide ((phase1 (384 * 2) (phase1Init q e)).k > 384)) = false ↔
      (phase1 (384 * 2) (phase1Init q e)).k ≤ 384) := by
  have hterm := phase1_terminates (384 * 2) (phase1Init q e) 381 381
    (by show 1 ≤ q; omega) (by show q < 2 ^ 381; exact hq)
    (by show e < 2 ^ 381; omega) (by omega) (by omega) (by omega)
  have hk0 : (phase1Init q e).k = 0 := rfl
  rw [hk0] at hterm
  obtain ⟨h1, h2, h3⟩ := hterm
  refine ⟨h1, h2, by omega, by omega, ?_⟩
  rw [h1]
  simp

theorem phase1_found_witness :
    modulus < 2 ^ 381 ∧ 16 < modulus ∧
    ((phase1 (384 * 2) (phase1Init modulus 16)).found = true ∧
    (phase1 (384 * 2) (phase1Init modulus 16)).v = 0 ∧
    (phase1 (384 * 2) (phase1Init modulus 16)).k + 1 ≤ 762 ∧
    (phase1 (384 * 2) (phase1Init modulus 16)).k < 384 * 2 ∧
    (((phase1 (384 * 2) (phase1Init modulus 16)).found &&
        decide ((phase1 (384 * 2) (phase1Init modulus 16)).k > 384)) = false ↔
      (phase1 (384 * 2) (phase1Init modulus 16)).k ≤ 384)) :=
  ⟨by decide, by decide, phase1_found modulus 16 (by decide) (by decide)⟩

/-- C17: for every field element `e` with `0 < e < q` (`q` an odd prime below
`2^381`) whose Phase 1 ends with `k > 384`, the value that `inverse` writes
is `e⁻¹·2^768 mod q`: it is below `q`, its product with `e` is `2^768`
modulo `q`, and `mul(e, inv) = one()`; when instead `k ≤ 384` (as for the raw
element `fe{1}` at the BLS12-381 modulus, where `k = 381`), `inverse` writes
zero. -/
theorem inverse_spec (q e : Nat) (hp : q.Prime) (hodd : q % 2 = 1) (hq : q < 2 ^ 381)
    (he0 : 0 < e) (he : e < q) :
    (384 < (phase1 (384 * 2) (phase1Init q e)).k →
      ((inverse q e : Nat) : ZMod q) = (e : ZMod q)⁻¹ * 2 ^ 768 ∧
      e * inverse q e % q = 2 ^ 768 % q ∧ inverse q e < q ∧
      mul q e (inverse q e) = one q) ∧
    ((phase1 (384 * 2) (phase1Init q e)).k ≤ 384 → inverse q e = 0) ∧
    (phase1 (384 * 2) (phase1Init modulus 1)).k = 381 ∧ inverse modulus 1 = 0 := by
  refine ⟨?_, ?_, rfl, rfl⟩
  · intro hk
    have hc : Nat.Coprime q e :=
      (Nat.Prime.coprime_iff_not_dvd hp).2 (Nat.not_dvd_of_pos_of_lt he0 he)
    obtain ⟨h1, h2⟩ := cast_inverse q e hodd hq he hc hk
    haveI : Fact q.Prime := ⟨hp⟩
    have hq1 : 1 < q := hp.one_lt
    have hne : (e : ZMod q) ≠ 0 := by
      intro h0
      rw [h0, zero_mul] at h1
      exact two_pow_ne_zero q hodd hq1 768 (le_refl _) h1.symm
    refine ⟨?_, ?_, h2, ?_⟩
    · rw [← h1, inv_mul_cancel_left₀ hne]
    · have h3 : (((e * inverse q e : Nat) : ZMod q)) = ((2 ^ 768 : Nat) : ZMod q) := by
        rw [Nat.cast_mul, h1, Nat.cast_pow, Nat.cast_ofNat]
      exact (ZMod.natCast_eq_natCast_iff' _ _ _).1 h3
    · apply eq_of_cast_eq q _ _ (mul_lt q _ _ (by omega)) (r1_lt q (by omega))
      rw [cast_mul, h1]
      show (2 : ZMod q) ^ 768 * (rInv q : ZMod q) = ((r1 q : Nat) : ZMod q)
      rw [cast_r1]
      have h := rInv_mul_montR q hodd
      have hm : ((montR : Nat) : ZMod q) = (2 : ZMod q) ^ 384 := by
        unfold montR
        rw [Nat.cast_pow, Nat.cast_ofNat]
      rw [hm] at h ⊢
      have e2 : (2 : ZMod q) ^ 768 * (rInv q : ZMod q) =
          2 ^ 384 * ((rInv q : ZMod q) * 2 ^ 384) := by ring
      rw [e2, h, mul_one]
  · intro hk
    unfold inverse
    have hg : ¬ (384 < (phase1 (384 * 2) (phase1Init q e)).k) := by omega
    simp [hg]

theorem inverse_spec_witness :
    modulus % 2 = 1 ∧ modulus < 2 ^ 381 ∧ 0 < 16 ∧ 16 < modulus ∧
    (phase1 (384 * 2) (phase1Init modulus 16)).k = 385 ∧
    ((inverse modulus 16 : Nat) : ZMod modulus) = ((16 : Nat) : ZMod modulus)⁻¹ * 2 ^ 768 ∧
    16 * inverse modulus 16 % modulus = 2 ^ 768 % modulus ∧ inverse modulus 16 < modulus ∧
    mul modulus 16 (inverse modulus 16) = one modulus :=
  have hk : (phase1 (384 * 2) (phase1Init modulus 16)).k = 385 := by rfl
  ⟨by decide, by decide, by decide, by decide, hk,
    (inverse_spec modulus 16 modulus_prime (by decide) (by decide) (by decide) (by decide)).1
      (by rw [hk]; decide)⟩

end Bls
